import Mathlib

/-!
Verification of the text-buffer engine and LSP orchestrator of a structural
text editor (buffer.rs, lsp/manager.rs) against its natural-language
specification.  The Rust code is shallowly embedded: the rope text storage
is a `List Char`, ropey operations that panic on out-of-range input are
modelled as `Option`-valued functions returning `none` exactly where ropey
documents a panic, tree-sitter trees are rose trees of nodes paired with
the text they were parsed from, and the tree-sitter parser is a `Grammar`
parameter whose documented contract (the returned tree represents exactly
the input text) is an explicit hypothesis.
-/

set_option maxHeartbeats 1000000

namespace Ki

/-- A character index into the buffer (`CharIndex` in selection.rs). -/
abbrev CharIndex := Nat

/-! ## Rope model (ropey)

The rope is modelled as a `List Char`.  Each ropey operation used by
buffer.rs is reproduced with its documented semantics; `none` models the
panic ropey documents for out-of-range input. -/

/-- ropey `Rope::char_to_line`: the line index of the character at `i`,
equal to the number of line breaks among the first `i` characters.
Panics (here: `none`) when `i` exceeds the character count. -/
def ropeCharToLine (r : List Char) (i : Nat) : Option Nat :=
  if i ≤ r.length then some ((r.take i).count '\n') else none

/-- Char position where line `l` starts (total helper, garbage above range). -/
def lineStartAux : List Char → Nat → Nat
  | _, 0 => 0
  | [], _ + 1 => 0
  | c :: cs, n + 1 =>
    if c = '\n' then 1 + lineStartAux cs n else 1 + lineStartAux cs (n + 1)

/-- ropey `Rope::line_to_char`: the char index of the start of line `l`;
panics when `l` exceeds the line count (number of breaks + 1). -/
def ropeLineToChar (r : List Char) (l : Nat) : Option Nat :=
  if l ≤ r.count '\n' + 1 then some (lineStartAux r l) else none

/-- ropey `Rope::try_line_to_char`: the fallible variant, `Option`-valued. -/
def ropeTryLineToChar (r : List Char) (l : Nat) : Option Nat :=
  ropeLineToChar r l

/-- ropey `Rope::char_to_byte`: byte offset of character `i` (UTF-8 widths);
panics above the character count. -/
def ropeCharToByte : List Char → Nat → Option Nat
  | _, 0 => some 0
  | [], _ + 1 => none
  | c :: cs, i + 1 => (ropeCharToByte cs i).map (c.utf8Size + ·)

/-- ropey `Rope::byte_to_char`: index of the character containing byte `b`
(`r.length` when `b` is the total byte length); panics above it. -/
def ropeByteToChar : List Char → Nat → Option Nat
  | [], b => if b = 0 then some 0 else none
  | c :: cs, b =>
    if b < c.utf8Size then some 0
    else (ropeByteToChar cs (b - c.utf8Size)).map (· + 1)

/-- ropey `Rope::remove(a..b)`: panics when `a > b` or `b` exceeds length. -/
def ropeRemove (r : List Char) (a b : Nat) : Option (List Char) :=
  if a ≤ b ∧ b ≤ r.length then some (r.take a ++ r.drop b) else none

/-- ropey `Rope::insert(i, s)`: panics when `i` exceeds length. -/
def ropeInsert (r : List Char) (i : Nat) (s : List Char) : Option (List Char) :=
  if i ≤ r.length then some (r.take i ++ s ++ r.drop i) else none

/-! ## tree-sitter model -/

/-- `tree_sitter::Point`: row/column position. -/
structure Point where
  row : Nat
  column : Nat
deriving Repr, DecidableEq

/-- `tree_sitter::InputEdit`: the byte/point description of an edit handed
to `Tree::edit`. -/
structure InputEdit where
  start_byte : Nat
  old_end_byte : Nat
  new_end_byte : Nat
  start_position : Point
  old_end_position : Point
  new_end_position : Point
deriving Repr, DecidableEq

/-- `tree_sitter::Node`: a syntax-tree node with its identity, byte range,
named flag and children. -/
inductive Node where
  | mk (nid : Nat) (startB : Nat) (endB : Nat) (named : Bool)
      (children : List Node)
deriving Repr

/-- `Node::id`. -/
def Node.nid : Node → Nat
  | .mk i _ _ _ _ => i

/-- `Node::start_byte`. -/
def Node.start_byte : Node → Nat
  | .mk _ s _ _ _ => s

/-- `Node::end_byte`. -/
def Node.end_byte : Node → Nat
  | .mk _ _ e _ _ => e

/-- `Node::is_named`. -/
def Node.is_named : Node → Bool
  | .mk _ _ _ n _ => n

/-- The node's children list. -/
def Node.children : Node → List Node
  | .mk _ _ _ _ cs => cs

/-- `Node::child_count`. -/
def Node.child_count (n : Node) : Nat := n.children.length

mutual
/-- Pre-order traversal of a node (tree_sitter_traversal, `Order::Pre`):
the node first, then its children's traversals. -/
def Node.preorder : Node → List Node
  | .mk i s e nm cs => .mk i s e nm cs :: preorderList cs

/-- Pre-order traversal of a forest. -/
def preorderList : List Node → List Node
  | [] => []
  | c :: cs => Node.preorder c ++ preorderList cs
end

mutual
/-- Post-order traversal of a node (tree_sitter_traversal, `Order::Post`):
the children's traversals first, then the node. -/
def Node.postorder : Node → List Node
  | .mk i s e nm cs => postorderList cs ++ [.mk i s e nm cs]

/-- Post-order traversal of a forest. -/
def postorderList : List Node → List Node
  | [] => []
  | c :: cs => Node.postorder c ++ postorderList cs
end

/-- `tree_sitter::Tree`: the root node together with the text the tree was
parsed from (the model's rendering of "the content the tree represents"). -/
structure Tree where
  root : Node
  content : List Char

/-- `Tree::root_node`. -/
def Tree.root_node (t : Tree) : Node := t.root

/-- Byte-position adjustment performed by the external `Tree::edit`:
positions past the removed range shift by the length change, positions
inside it collapse onto the new end (model of the tree-sitter library's
range shifting; the edited tree is only a reparse hint). -/
def shiftByte (ie : InputEdit) (b : Nat) : Nat :=
  if ie.old_end_byte ≤ b then b - ie.old_end_byte + ie.new_end_byte
  else if ie.start_byte ≤ b then min b ie.new_end_byte
  else b

mutual
/-- Range shifting of `Tree::edit`, applied to every node. -/
def Node.shiftBytes (ie : InputEdit) : Node → Node
  | .mk i s e nm cs =>
    .mk i (shiftByte ie s) (shiftByte ie e) nm (shiftBytesList ie cs)

/-- Range shifting over a forest. -/
def shiftBytesList (ie : InputEdit) : List Node → List Node
  | [] => []
  | c :: cs => Node.shiftBytes ie c :: shiftBytesList ie cs
end

/-- `tree_sitter::Tree::edit`: shifts node ranges to account for an edit,
leaving the recorded content stale (the result is only a reparse hint). -/
def Tree.edit (ie : InputEdit) (t : Tree) : Tree :=
  { t with root := t.root.shiftBytes ie }

/-- The tree-sitter parser for one grammar: an external collaborator,
modelled as a function from the text (and an optional previous-tree hint)
to a tree. -/
structure Grammar where
  parse : List Char → Option Tree → Tree

/-- tree-sitter's documented parser contract: the returned tree represents
exactly the input text, whatever hint is supplied. -/
def GrammarOk (G : Grammar) : Prop :=
  ∀ text hint, (G.parse text hint).content = text

/-! ## Edit model

`Edit` and `EditTransaction` live in edit.rs, which is not under src/;
they are modelled from the spec. -/

/-- Modelled from the spec: an `Edit` (edit.rs, not under src/) is
`{start: CharIndex, old_length/end: CharIndex, new: character-sequence}`,
"replace [start,end) with new"; the replaced content is carried so that
the inverse (original and replacement swapped) is computable. -/
structure Edit where
  start : Nat
  old : List Char
  new : List Char
deriving Repr, DecidableEq

/-- `Edit::end` (`end` is reserved in Lean): one past the replaced range,
`start + old_length`. -/
def Edit.endChar (e : Edit) : Nat := e.start + e.old.length

/-- The inverse of a single edit: same position, original and replacement
content swapped. -/
def Edit.swap (e : Edit) : Edit := ⟨e.start, e.new, e.old⟩

/-- Modelled from the spec: an `EditTransaction` (edit.rs, not under src/)
is an ordered sequence of edits applied as one logical unit. -/
structure EditTransaction where
  edits : List Edit
deriving Repr, DecidableEq

/-- Modelled from the spec: `EditTransaction::inverse` (edit.rs, not under
src/) keeps every edit's position and swaps its original and replacement
content; the edits are replayed in the opposite order so that applying the
transaction and then its inverse restores the prior text exactly, as the
spec requires. -/
def EditTransaction.inverse (t : EditTransaction) : EditTransaction :=
  ⟨(t.edits.map Edit.swap).reverse⟩

/-- Modelled from the spec: `EditHistoryKind` (engine.rs, not under src/),
the three history tags matched on in `apply_edit_transaction`. -/
inductive EditHistoryKind where
  | NewEdit
  | Undo
  | Redo
deriving Repr, DecidableEq

/-! ## Selections, patches, buffer -/

/-- Modelled from the spec: a `Selection` (selection.rs, not under src/)
is a cursor/selection range that optionally references a syntax node by
identity for sticky selections. -/
structure Selection where
  range_start : Nat
  range_end : Nat
  node_id : Option Nat
deriving Repr, DecidableEq

/-- Modelled from the spec: a `SelectionSet` (selection.rs, not under
src/) is the active set of cursor/selection ranges at commit time. -/
structure SelectionSet where
  selections : List Selection
deriving Repr, DecidableEq

/-- `Patch` (buffer.rs): the inverse transaction together with the
selection set to restore on undo/redo. -/
structure Patch where
  edit_transaction : EditTransaction
  selection_set : SelectionSet
deriving Repr, DecidableEq

/-- `Buffer` (buffer.rs).  The two patch vectors are stacks; the model
keeps the most recently pushed element at the head of the list. -/
structure Buffer where
  rope : List Char
  tree : Tree
  undo_patches : List Patch
  redo_patches : List Patch

/-! ## Buffer operations -/

/-- `Buffer::char_to_line`. -/
def Buffer.char_to_line (b : Buffer) (char_index : Nat) : Option Nat :=
  ropeCharToLine b.rope char_index

/-- `Buffer::line_to_char`. -/
def Buffer.line_to_char (b : Buffer) (line_index : Nat) : Option Nat :=
  ropeLineToChar b.rope line_index

/-- `Buffer::char_to_byte`. -/
def Buffer.char_to_byte (b : Buffer) (char_index : Nat) : Option Nat :=
  ropeCharToByte b.rope char_index

/-- `Buffer::char_to_point`: row from the line index, column from the
offset within the line (`try_line_to_char` result, defaulting to 0,
subtracted saturatingly). -/
def Buffer.char_to_point (b : Buffer) (char_index : Nat) : Option Point :=
  (b.char_to_line char_index).map fun line =>
    { row := line
      column :=
        match ropeTryLineToChar b.rope line with
        | some line_start_char_index => char_index - line_start_char_index
        | none => 0 }

/-- `Buffer::byte_to_char`. -/
def Buffer.byte_to_char (b : Buffer) (byte_index : Nat) : Option Nat :=
  ropeByteToChar b.rope byte_index

/-- `Buffer::len_chars`. -/
def Buffer.len_chars (b : Buffer) : Nat := b.rope.length

/-- `Buffer::get_nearest_node_after_char`: pre-order traversal, first node
whose start byte is at or after the queried byte.  The outer `Option`
models the panic of `char_to_byte` on an out-of-range index; the inner one
is the lookup's own result. -/
def Buffer.get_nearest_node_after_char (b : Buffer) (char_index : Nat) :
    Option (Option Node) :=
  (b.char_to_byte char_index).map fun byte =>
    b.tree.root_node.preorder.find? fun node => byte ≤ node.start_byte

/-- `Buffer::get_node_by_id`: pre-order search for a node with the given
identity. -/
def Buffer.get_node_by_id (b : Buffer) (node_id : Nat) : Option Node :=
  b.tree.root_node.preorder.find? fun node => node.nid = node_id

/-- `Buffer::get_current_node`: resolve a remembered node identity when
the selection has one, otherwise the nearest-node-after lookup; fall back
to the root node.  `none` models the panic of the nearest-node lookup on
an out-of-range cursor. -/
def Buffer.get_current_node (b : Buffer) (cursor_char_index : Nat)
    (selection : Selection) : Option Node :=
  match selection.node_id with
  | some node_id => some ((b.get_node_by_id node_id).getD b.tree.root_node)
  | none =>
    (b.get_nearest_node_after_char cursor_char_index).map fun found =>
      found.getD b.tree.root_node

/-- `Buffer::get_next_token`: post-order traversal, first childless node
(optionally restricted to named nodes) whose end byte lies strictly past
the queried byte.  Outer `Option`: `char_to_byte` panic. -/
def Buffer.get_next_token (b : Buffer) (char_index : Nat)
    (is_named : Bool) : Option (Option Node) :=
  (b.char_to_byte char_index).map fun byte =>
    b.tree.root_node.postorder.find? fun node =>
      node.child_count = 0 ∧ (!is_named ∨ node.is_named) ∧ byte < node.end_byte

/-- `Buffer::get_prev_token` delegates to `find_previous` from utils.rs,
which is not under src/.  Modelled from the spec: post-order traversal
filtered to leaf nodes (no children), optionally restricted to named
nodes, returning the last such leaf beginning strictly before the query
position.  Outer `Option`: `char_to_byte` panic. -/
def Buffer.get_prev_token (b : Buffer) (char_index : Nat)
    (is_named : Bool) : Option (Option Node) :=
  (b.char_to_byte char_index).map fun byte =>
    (b.tree.root_node.postorder.filter fun node =>
        node.child_count = 0 ∧ (!is_named ∨ node.is_named) ∧
          node.start_byte < byte).getLast?

/-- `Buffer::apply_edit`.  The outer `Option` models panics of the
internal rope and parser operations (`none` exactly where ropey documents
one); the `Except` layer is the Rust `Result` the function returns.  The
steps mirror the source: resolve start/old-end coordinates against the
pre-edit rope, remove then insert, resolve the new end against the
post-edit rope, shift the tree's ranges, reparse the post-edit text with
the shifted tree as the incremental hint. -/
def Buffer.apply_edit (G : Grammar) (b : Buffer) (edit : Edit) :
    Option (Except String Buffer) := do
  let start_char_index := edit.start
  let old_end_char_index := edit.endChar
  let new_end_char_index := edit.start + edit.new.length
  let start_byte ← b.char_to_byte start_char_index
  let old_end_byte ← b.char_to_byte old_end_char_index
  let start_position ← b.char_to_point start_char_index
  let old_end_position ← b.char_to_point old_end_char_index
  let removed ← ropeRemove b.rope edit.start edit.endChar
  let rope2 ← ropeInsert removed edit.start edit.new
  let b2 : Buffer := { b with rope := rope2 }
  let new_end_byte ← b2.char_to_byte new_end_char_index
  let new_end_position ← b2.char_to_point new_end_char_index
  let input_edit : InputEdit :=
    { start_byte, old_end_byte, new_end_byte,
      start_position, old_end_position, new_end_position }
  let tree1 := Tree.edit input_edit b.tree
  let tree2 := G.parse rope2 (some tree1)
  pure (.ok { b2 with tree := tree2 })

/-- `Buffer::apply_edit_transaction`: apply every edit in order, aborting
the fold at the first failure; on success push a patch holding the
transaction's inverse and the given selection set, per the history kind
(a new edit also clears the redo stack). -/
def Buffer.apply_edit_transaction (G : Grammar) (b : Buffer)
    (edit_transaction : EditTransaction) (current_selection_set : SelectionSet)
    (edit_history_kind : EditHistoryKind) : Option (Except String Buffer) := do
  let folded ← edit_transaction.edits.foldlM
    (fun acc edit =>
      match acc with
      | .error err => pure (.error err)
      | .ok b' => Buffer.apply_edit G b' edit)
    (Except.ok b : Except String Buffer)
  match folded with
  | .error err => pure (.error err)
  | .ok b' =>
    let patch : Patch :=
      { selection_set := current_selection_set
        edit_transaction := edit_transaction.inverse }
    pure (.ok
      (match edit_history_kind with
       | .NewEdit =>
         { b' with redo_patches := [], undo_patches := patch :: b'.undo_patches }
       | .Undo => { b' with redo_patches := patch :: b'.redo_patches }
       | .Redo => { b' with undo_patches := patch :: b'.undo_patches }))

/-- `Buffer::undo`: pop the undo stack; on an empty stack a logged no-op
returning nothing.  The popped patch's transaction is applied as an `Undo`
commit (`revert_change`, whose `unwrap` panic is the outer `none`), and
the patch's recorded selection set is returned. -/
def Buffer.undo (G : Grammar) (b : Buffer) (current_selection_set : SelectionSet) :
    Option (Buffer × Option SelectionSet) :=
  match b.undo_patches with
  | [] => some (b, none)
  | patch :: rest =>
    match Buffer.apply_edit_transaction G { b with undo_patches := rest }
        patch.edit_transaction current_selection_set .Undo with
    | some (.ok b') => some (b', some patch.selection_set)
    | _ => none

/-- `Buffer::redo`: pop the redo stack; on an empty stack a logged no-op
returning nothing.  The popped patch's transaction is applied as a `Redo`
commit, and the patch's recorded selection set is returned. -/
def Buffer.redo (G : Grammar) (b : Buffer) (current_selection_set : SelectionSet) :
    Option (Buffer × Option SelectionSet) :=
  match b.redo_patches with
  | [] => some (b, none)
  | patch :: rest =>
    match Buffer.apply_edit_transaction G { b with redo_patches := rest }
        patch.edit_transaction current_selection_set .Redo with
    | some (.ok b') => some (b', some patch.selection_set)
    | _ => none

/-! ## LSP orchestrator (lsp/manager.rs)

`Language`, `get_languages`, `consolidate_errors` and the channel type live
in files that are not under src/ and are modelled from the spec; the
manager's own logic mirrors lsp/manager.rs. -/

/-- Modelled from the spec: a `Language` (lsp/language.rs, not under src/)
is an enumerated tag identifying a grammar/tool ecosystem. -/
abbrev Language := Nat

/-- A canonicalized file path, treated as opaque. -/
abbrev CanonicalizedPath := String

/-- Request parameters; only the path is inspected by the manager. -/
structure RequestParams where
  path : CanonicalizedPath

/-- Modelled from the spec: `LspServerProcessChannel` (lsp/process.rs, not
under src/) is an opaque handle to a spawned analysis process exposing
request/notification operations (each an outcome observed by the manager)
and an initialization flag that flips true once. -/
structure LspServerProcessChannel where
  is_initialized : Bool
  request_completion : RequestParams → Except String Unit
  request_hover : RequestParams → Except String Unit
  request_definition : RequestParams → Except String Unit
  request_references : RequestParams → Except String Unit
  document_did_open : CanonicalizedPath → Except String Unit
  documents_did_open : List CanonicalizedPath → Except String Unit
  document_did_change : CanonicalizedPath → String → Except String Unit
  document_did_save : CanonicalizedPath → Except String Unit

/-- The aggregated error of `consolidate_errors`: the call's label and
every individual failure's reason. -/
structure AggregateError where
  label : String
  reasons : List String
deriving Repr, DecidableEq

/-- Modelled from the spec: `consolidate_errors` (utils.rs, not under
src/): given a label and the per-language outcomes, success when all
succeed, otherwise one aggregated failure naming the label and enumerating
every individual failure's reason, with no success detail. -/
def consolidate_errors (label : String)
    (results : List (Except String Unit)) : Except AggregateError Unit :=
  let failures := results.filterMap fun r =>
    match r with
    | .error reason => some reason
    | .ok _ => none
  if failures.isEmpty then .ok () else .error ⟨label, failures⟩

/-- `LspManager` (lsp/manager.rs): the map from language to its channel.
The map is an association list keyed by language; `get_languages`, a pure
function of the path (lsp/language.rs, not under src/), is passed
explicitly. -/
structure LspManager where
  lsp_server_process_channels : List (Language × LspServerProcessChannel)

/-- Map lookup (`HashMap::get`). -/
def LspManager.get_channel (m : LspManager) (language : Language) :
    Option LspServerProcessChannel :=
  (m.lsp_server_process_channels.find? fun p => p.1 = language).map Prod.snd

/-- Map insert (`HashMap::insert`): replaces any existing entry. -/
def LspManager.insert_channel (m : LspManager) (language : Language)
    (channel : LspServerProcessChannel) : LspManager :=
  ⟨(language, channel) ::
    m.lsp_server_process_channels.filter fun p => ¬(p.1 = language)⟩

/-- `LspManager::invoke_channels`: resolve the path's languages, keep the
languages whose channel is present in the map, apply the operation to
every such channel, and consolidate the outcomes under the label. -/
def LspManager.invoke_channels (m : LspManager)
    (get_languages : CanonicalizedPath → List Language)
    (path : CanonicalizedPath) (error : String)
    (f : LspServerProcessChannel → Except String Unit) :
    Except AggregateError Unit :=
  let languages := get_languages path
  let results :=
    (languages.filterMap fun language => m.get_channel language).map f
  consolidate_errors error results

/-- `LspManager::request_completion`. -/
def LspManager.request_completion (m : LspManager)
    (get_languages : CanonicalizedPath → List Language)
    (params : RequestParams) : Except AggregateError Unit :=
  m.invoke_channels get_languages params.path "Failed to request completion"
    fun channel => channel.request_completion params

/-- `LspManager::request_hover`. -/
def LspManager.request_hover (m : LspManager)
    (get_languages : CanonicalizedPath → List Language)
    (params : RequestParams) : Except AggregateError Unit :=
  m.invoke_channels get_languages params.path "Failed to request hover"
    fun channel => channel.request_hover params

/-- `LspManager::request_definition`. -/
def LspManager.request_definition (m : LspManager)
    (get_languages : CanonicalizedPath → List Language)
    (params : RequestParams) : Except AggregateError Unit :=
  m.invoke_channels get_languages params.path "Failed to go to definition"
    fun channel => channel.request_definition params

/-- `LspManager::request_references`. -/
def LspManager.request_references (m : LspManager)
    (get_languages : CanonicalizedPath → List Language)
    (params : RequestParams) : Except AggregateError Unit :=
  m.invoke_channels get_languages params.path "Failed to find references"
    fun channel => channel.request_references params

/-- `LspManager::document_did_change`. -/
def LspManager.document_did_change (m : LspManager)
    (get_languages : CanonicalizedPath → List Language)
    (path : CanonicalizedPath) (content : String) : Except AggregateError Unit :=
  m.invoke_channels get_languages path "Failed to notify document did change"
    fun channel => channel.document_did_change path content

/-- `LspManager::document_did_save`. -/
def LspManager.document_did_save (m : LspManager)
    (get_languages : CanonicalizedPath → List Language)
    (path : CanonicalizedPath) : Except AggregateError Unit :=
  m.invoke_channels get_languages path "Failed to notify document did save"
    fun channel => channel.document_did_save path

/-- Observable side effects of `open_file`, recorded so the model can
state which processes were spawned and which notifications sent. -/
inductive LspEffect where
  | spawned (language : Language)
  | did_open_sent (language : Language) (path : CanonicalizedPath)
deriving Repr, DecidableEq

/-- One step of `open_file`'s per-language loop: spawn and insert a
channel when the language has none (recording the spawn even before
initialization completes), notify an initialized channel that the
document is open, and do nothing for a spawned-but-uninitialized one. -/
def open_file_step (spawn_lsp : Language → Except String LspServerProcessChannel)
    (path : CanonicalizedPath)
    (acc : LspManager × List LspEffect × List (Except String Unit))
    (language : Language) :
    LspManager × List LspEffect × List (Except String Unit) :=
  let (m, effects, results) := acc
  match m.get_channel language with
  | some channel =>
    if channel.is_initialized then
      (m, effects ++ [.did_open_sent language path],
        results ++ [channel.document_did_open path])
    else
      (m, effects, results ++ [.ok ()])
  | none =>
    match spawn_lsp language with
    | .ok channel =>
      (m.insert_channel language channel, effects ++ [.spawned language],
        results ++ [.ok ()])
    | .error e => (m, effects, results ++ [.error e])

/-- `LspManager::open_file`: for every language of the path, the
three-way case split of `open_file_step`, consolidating the per-language
outcomes.  `spawn_lsp` (lsp/language.rs / process.rs, not under src/) is
the external process spawner. -/
def LspManager.open_file (m : LspManager)
    (get_languages : CanonicalizedPath → List Language)
    (spawn_lsp : Language → Except String LspServerProcessChannel)
    (path : CanonicalizedPath) :
    LspManager × List LspEffect × Except AggregateError Unit :=
  let (m', effects, results) :=
    (get_languages path).foldl (open_file_step spawn_lsp path) (m, [], [])
  (m', effects, consolidate_errors "Failed to start language server" results)

/-- `LspManager::initialized`: mark the language's channel initialized and
replay a documents-did-open notification for every recorded open document
(returned as the second component); absent channel: no-op. -/
def LspManager.mark_initialized (m : LspManager) (language : Language)
    (opened_documents : List CanonicalizedPath) :
    LspManager × Option (Except String Unit) :=
  match m.get_channel language with
  | none => (m, none)
  | some channel =>
    (m.insert_channel language { channel with is_initialized := true },
      some (channel.documents_did_open opened_documents))

/-! ## Proof layer: text-level view of edits -/

/-- The text produced by one edit, as a total function of the pre-edit
text: remove `[start, start+old_length)`, insert `new` at `start`. -/
def Edit.splice (e : Edit) (r : List Char) : List Char :=
  r.take e.start ++ e.new ++ r.drop (e.start + e.old.length)

/-- An edit fits a text when its range is in bounds and its recorded
original content is the text currently at that range. -/
def Edit.matchesText (e : Edit) (r : List Char) : Prop :=
  e.start + e.old.length ≤ r.length ∧ (r.drop e.start).take e.old.length = e.old

/-- Sequential application of a list of edits at the text level; `none`
exactly when some edit's range falls out of bounds (the rope panic). -/
def applyTexts : List Edit → List Char → Option (List Char)
  | [], r => some r
  | e :: es, r =>
    if e.start + e.old.length ≤ r.length then applyTexts es (e.splice r)
    else none

/-- Total splice of a list of edits (meaningful on in-bounds runs). -/
def spliceAll (es : List Edit) (r : List Char) : List Char :=
  es.foldl (fun r e => e.splice r) r

/-- Every edit of the list fits the text it is applied to. -/
def EditsMatch : List Edit → List Char → Prop
  | [], _ => True
  | e :: es, r => e.matchesText r ∧ EditsMatch es (e.splice r)

/-- The reparse hint built by `apply_edit`: the pre-edit tree with its
ranges shifted by the edit's byte/point description. -/
def applyEditHint (b : Buffer) (edit : Edit) : Tree :=
  let b2 : Buffer := { b with rope := edit.splice b.rope }
  Tree.edit
    { start_byte := (b.char_to_byte edit.start).getD 0
      old_end_byte := (b.char_to_byte edit.endChar).getD 0
      new_end_byte := (b2.char_to_byte (edit.start + edit.new.length)).getD 0
      start_position := (b.char_to_point edit.start).getD ⟨0, 0⟩
      old_end_position := (b.char_to_point edit.endChar).getD ⟨0, 0⟩
      new_end_position :=
        (b2.char_to_point (edit.start + edit.new.length)).getD ⟨0, 0⟩ }
    b.tree

/-! ## Helper lemmas -/

lemma isSome_exists {α : Type} {o : Option α} (h : o.isSome) : ∃ a, o = some a := by
  cases o
  · simp at h
  · exact ⟨_, rfl⟩

lemma ropeCharToByte_isSome_iff :
    ∀ (r : List Char) (i : Nat), (ropeCharToByte r i).isSome ↔ i ≤ r.length := by
  intro r
  induction r with
  | nil => intro i; cases i <;> simp [ropeCharToByte]
  | cons c cs ih =>
    intro i
    cases i with
    | zero => simp [ropeCharToByte]
    | succ n => simp [ropeCharToByte, ih n, Nat.succ_le_succ_iff]

lemma char_to_point_isSome_iff (b : Buffer) (i : Nat) :
    (b.char_to_point i).isSome ↔ i ≤ b.rope.length := by
  rw [Buffer.char_to_point, Buffer.char_to_line, ropeCharToLine]
  split <;> simp_all

lemma splice_length (e : Edit) (r : List Char)
    (h : e.start + e.old.length ≤ r.length) :
    (e.splice r).length =
      e.start + e.new.length + (r.length - (e.start + e.old.length)) := by
  have hs : e.start ≤ r.length := le_trans (Nat.le_add_right _ _) h
  simp only [Edit.splice, List.length_append, List.length_take, List.length_drop]
  rw [Nat.min_eq_left hs]

/-- In-range edits succeed: `apply_edit` returns `Ok`, the rope becomes the
splice, the tree the incremental reparse of it, the history untouched. -/
lemma apply_edit_of_le (G : Grammar) (b : Buffer) (e : Edit)
    (h : e.start + e.old.length ≤ b.rope.length) :
    b.apply_edit G e = some (.ok
      { rope := e.splice b.rope
        tree := G.parse (e.splice b.rope) (some (applyEditHint b e))
        undo_patches := b.undo_patches
        redo_patches := b.redo_patches }) := by
  have hs : e.start ≤ b.rope.length := le_trans (Nat.le_add_right _ _) h
  obtain ⟨sb, h1⟩ := isSome_exists ((ropeCharToByte_isSome_iff b.rope e.start).mpr hs)
  obtain ⟨ob, h2⟩ := isSome_exists ((ropeCharToByte_isSome_iff b.rope e.endChar).mpr h)
  obtain ⟨sp, h3⟩ := isSome_exists ((char_to_point_isSome_iff b e.start).mpr hs)
  obtain ⟨op, h4⟩ := isSome_exists ((char_to_point_isSome_iff b e.endChar).mpr h)
  have h5 : ropeRemove b.rope e.start e.endChar =
      some (b.rope.take e.start ++ b.rope.drop (e.start + e.old.length)) := by
    rw [ropeRemove, if_pos]
    · rfl
    · exact ⟨Nat.le_add_right _ _, h⟩
  have htk : (b.rope.take e.start).length = e.start := by simp [Nat.min_eq_left hs]
  have h6 : ropeInsert (b.rope.take e.start ++ b.rope.drop (e.start + e.old.length))
      e.start e.new = some (e.splice b.rope) := by
    rw [ropeInsert, if_pos]
    · rw [List.take_left' htk, List.drop_left' htk, Edit.splice]
    · simp [htk]
  have hlen2 := splice_length e b.rope h
  have hne : e.start + e.new.length ≤ (e.splice b.rope).length := by
    rw [hlen2]; exact Nat.le_add_right _ _
  obtain ⟨nb, h7⟩ := isSome_exists
    ((ropeCharToByte_isSome_iff (e.splice b.rope) (e.start + e.new.length)).mpr hne)
  obtain ⟨np, h8⟩ := isSome_exists
    ((char_to_point_isSome_iff ⟨e.splice b.rope, b.tree, b.undo_patches, b.redo_patches⟩
      (e.start + e.new.length)).mpr hne)
  have hgd3 : (b.char_to_point e.start).getD ⟨0, 0⟩ = sp := by
    rw [h3]; exact Option.getD_some
  have hgd4 : (b.char_to_point e.endChar).getD ⟨0, 0⟩ = op := by
    rw [h4]; exact Option.getD_some
  rw [Buffer.apply_edit]
  simp only [Buffer.char_to_byte] at h1 h2 h7 ⊢
  simp only [h1, h2, h3, h4, Option.bind_eq_bind, Option.some_bind, h5, h6]
  have hb2 : ({ b with rope := e.splice b.rope } : Buffer) =
      ⟨e.splice b.rope, b.tree, b.undo_patches, b.redo_patches⟩ := rfl
  simp only [hb2, Buffer.char_to_byte, h7, h8, Option.some_bind]
  have hgd1 : (ropeCharToByte b.rope e.start).getD 0 = sb := by
    rw [h1]; exact Option.getD_some
  have hgd2 : (ropeCharToByte b.rope e.endChar).getD 0 = ob := by
    rw [h2]; exact Option.getD_some
  simp only [applyEditHint, Buffer.char_to_byte, hgd1, hgd2, hgd3, hgd4, hb2]
  simp only [h7, h8, Option.getD_some, Option.pure_def]

/-- Out-of-range edits panic: `apply_edit` is `none` (a rope operation
panics before anything else happens). -/
lemma apply_edit_of_lt (G : Grammar) (b : Buffer) (e : Edit)
    (h : ¬ e.start + e.old.length ≤ b.rope.length) :
    b.apply_edit G e = none := by
  have h2 : ropeCharToByte b.rope e.endChar = none := by
    rw [← Option.not_isSome_iff_eq_none, ropeCharToByte_isSome_iff]
    exact h
  rw [Buffer.apply_edit]
  simp only [Buffer.char_to_byte, Option.bind_eq_bind]
  cases hc : ropeCharToByte b.rope e.start <;> simp [h2]

/-- The per-edit fold of `apply_edit_transaction`, as a named function for
reasoning. -/
def editFold (G : Grammar) (es : List Edit) (acc : Except String Buffer) :
    Option (Except String Buffer) :=
  es.foldlM
    (fun acc edit =>
      match acc with
      | .error err => pure (.error err)
      | .ok b' => Buffer.apply_edit G b' edit)
    acc

/-- The history push of `apply_edit_transaction`. -/
def historyPush (k : EditHistoryKind) (patch : Patch) (b : Buffer) : Buffer :=
  match k with
  | .NewEdit => { b with redo_patches := [], undo_patches := patch :: b.undo_patches }
  | .Undo => { b with redo_patches := patch :: b.redo_patches }
  | .Redo => { b with undo_patches := patch :: b.undo_patches }

lemma aet_eq (G : Grammar) (b : Buffer) (tr : EditTransaction) (sel : SelectionSet) (k : EditHistoryKind) :
    b.apply_edit_transaction G tr sel k =
      (editFold G tr.edits (.ok b)).bind fun folded =>
        match folded with
        | .error err => some (.error err)
        | .ok b' => some (.ok (historyPush k ⟨tr.inverse, sel⟩ b')) := by
  rfl

lemma editFold_ok (G : Grammar) : ∀ (es : List Edit) (b : Buffer) (r : Except String Buffer),
    editFold G es (.ok b) = some r →
    ∃ b', r = .ok b' ∧ applyTexts es b.rope = some b'.rope ∧
      b'.undo_patches = b.undo_patches ∧ b'.redo_patches = b.redo_patches ∧
      ((es = [] ∧ b' = b) ∨ ∃ hh, b'.tree = G.parse b'.rope (some hh)) := by
  intro es
  induction es with
  | nil =>
    intro b r h
    simp [editFold, List.foldlM] at h
    exact ⟨b, h.symm, rfl, rfl, rfl, Or.inl ⟨rfl, rfl⟩⟩
  | cons e es ih =>
    intro b r h
    rw [editFold, List.foldlM_cons] at h
    by_cases hle : e.start + e.old.length ≤ b.rope.length
    · simp only [apply_edit_of_le G b e hle, Option.bind_eq_bind, Option.some_bind] at h
      obtain ⟨b', hr, htexts, hu, hrd, htree⟩ := ih _ r h
      refine ⟨b', hr, ?_, hu, hrd, ?_⟩
      · rw [applyTexts, if_pos hle]
        exact htexts
      · rcases htree with ⟨-, rfl⟩ | ⟨hh, hparse⟩
        · exact Or.inr ⟨applyEditHint b e, rfl⟩
        · exact Or.inr ⟨hh, hparse⟩
    · simp only [apply_edit_of_lt G b e hle, Option.bind_eq_bind, Option.none_bind] at h
      exact absurd h (by simp)

lemma editFold_some (G : Grammar) : ∀ (es : List Edit) (b : Buffer) (r' : List Char),
    applyTexts es b.rope = some r' →
    ∃ b', editFold G es (.ok b) = some (.ok b') := by
  intro es
  induction es with
  | nil => intro b r' _; exact ⟨b, rfl⟩
  | cons e es ih =>
    intro b r' h
    rw [applyTexts] at h
    by_cases hle : e.start + e.old.length ≤ b.rope.length
    · rw [if_pos hle] at h
      obtain ⟨b', hb'⟩ := ih ⟨e.splice b.rope,
        G.parse (e.splice b.rope) (some (applyEditHint b e)),
        b.undo_patches, b.redo_patches⟩ r' h
      refine ⟨b', ?_⟩
      rw [editFold, List.foldlM_cons]
      simp only [apply_edit_of_le G b e hle, Option.bind_eq_bind, Option.some_bind]
      simpa [editFold] using hb'
    · rw [if_neg hle] at h
      exact absurd h (by simp)

lemma historyPush_rope (k : EditHistoryKind) (p : Patch) (b : Buffer) :
    (historyPush k p b).rope = b.rope := by cases k <;> rfl

lemma historyPush_tree (k : EditHistoryKind) (p : Patch) (b : Buffer) :
    (historyPush k p b).tree = b.tree := by cases k <;> rfl

/-- Characterization of a successful `apply_edit_transaction`. -/
lemma aet_ok (G : Grammar) (b : Buffer) (tr : EditTransaction)
    (sel : SelectionSet) (k : EditHistoryKind) (r : Except String Buffer)
    (h : b.apply_edit_transaction G tr sel k = some r) :
    ∃ b', r = .ok b' ∧ applyTexts tr.edits b.rope = some b'.rope ∧
      ((tr.edits = [] ∧ b'.tree = b.tree) ∨ ∃ hh, b'.tree = G.parse b'.rope (some hh)) ∧
      (k = .NewEdit → b'.undo_patches = ⟨tr.inverse, sel⟩ :: b.undo_patches ∧
        b'.redo_patches = []) ∧
      (k = .Undo → b'.redo_patches = ⟨tr.inverse, sel⟩ :: b.redo_patches ∧
        b'.undo_patches = b.undo_patches) ∧
      (k = .Redo → b'.undo_patches = ⟨tr.inverse, sel⟩ :: b.undo_patches ∧
        b'.redo_patches = b.redo_patches) := by
  rw [aet_eq] at h
  rcases hf : editFold G tr.edits (.ok b) with _ | folded
  · rw [hf] at h; simp at h
  · rw [hf] at h
    obtain ⟨bmid, rfl, htexts, hu, hrd, htree⟩ := editFold_ok G tr.edits b folded hf
    simp only [Option.bind_eq_bind, Option.some_bind] at h
    obtain rfl : (.ok (historyPush k ⟨tr.inverse, sel⟩ bmid) : Except String Buffer) = r := by
      simpa using h
    refine ⟨historyPush k ⟨tr.inverse, sel⟩ bmid, rfl, ?_, ?_, ?_, ?_, ?_⟩
    · rw [historyPush_rope]; exact htexts
    · rw [historyPush_tree, historyPush_rope]
      rcases htree with ⟨he, rfl⟩ | ⟨hh, hp⟩
      · exact Or.inl ⟨he, rfl⟩
      · exact Or.inr ⟨hh, hp⟩
    · rintro rfl; simp [historyPush, hu, hrd]
    · rintro rfl; simp [historyPush, hu, hrd]
    · rintro rfl; simp [historyPush, hu, hrd]

/-- A transaction whose edits stay in range commits successfully. -/
lemma aet_some (G : Grammar) (b : Buffer) (tr : EditTransaction)
    (sel : SelectionSet) (k : EditHistoryKind) (r' : List Char)
    (h : applyTexts tr.edits b.rope = some r') :
    ∃ b', b.apply_edit_transaction G tr sel k = some (.ok b') := by
  obtain ⟨bmid, hb⟩ := editFold_some G tr.edits b r' h
  rw [aet_eq, hb]
  exact ⟨historyPush k ⟨tr.inverse, sel⟩ bmid, rfl⟩

/-- `apply_edit_transaction` never produces the `Err` branch. -/
lemma aet_never_err (G : Grammar) (b : Buffer) (tr : EditTransaction)
    (sel : SelectionSet) (k : EditHistoryKind) (r : Except String Buffer)
    (h : b.apply_edit_transaction G tr sel k = some r) :
    ∃ b', r = .ok b' := by
  obtain ⟨b', hr, -⟩ := aet_ok G b tr sel k r h
  exact ⟨b', hr⟩

lemma spliceAll_nil (r : List Char) : spliceAll [] r = r := rfl

lemma spliceAll_cons (e : Edit) (es : List Edit) (r : List Char) :
    spliceAll (e :: es) r = spliceAll es (e.splice r) := rfl

lemma spliceAll_append (xs ys : List Edit) (r : List Char) :
    spliceAll (xs ++ ys) r = spliceAll ys (spliceAll xs r) := by
  simp [spliceAll, List.foldl_append]

lemma editsMatch_append : ∀ (xs ys : List Edit) (r : List Char),
    EditsMatch xs r → EditsMatch ys (spliceAll xs r) → EditsMatch (xs ++ ys) r := by
  intro xs
  induction xs with
  | nil => intro ys r _ hy; exact hy
  | cons e es ih =>
    intro ys r hx hy
    rw [spliceAll_cons] at hy
    exact ⟨hx.1, ih ys (e.splice r) hx.2 hy⟩

lemma matchesText_splice (e : Edit) (r : List Char) (h : e.matchesText r) :
    e.swap.matchesText (e.splice r) ∧ e.swap.splice (e.splice r) = r := by
  obtain ⟨hle, hold⟩ := h
  have hs : e.start ≤ r.length := le_trans (Nat.le_add_right _ _) hle
  have htk : (r.take e.start).length = e.start := by simp [Nat.min_eq_left hs]
  have hlen := splice_length e r hle
  constructor
  · constructor
    · rw [Edit.swap]
      simp only [hlen]
      exact Nat.le_add_right _ _
    · rw [Edit.swap]
      simp only [Edit.splice]
      rw [List.append_assoc, List.drop_left' htk, List.take_left]
  · rw [Edit.swap]
    simp only [Edit.splice]
    have htk2 : ((r.take e.start ++ e.new ++ r.drop (e.start + e.old.length)).take e.start)
        = r.take e.start := by
      rw [List.append_assoc, List.take_left' htk]
    have hdp2 : ((r.take e.start ++ e.new ++ r.drop (e.start + e.old.length)).drop
        (e.start + e.new.length)) = r.drop (e.start + e.old.length) := by
      rw [List.drop_left']
      simp [htk]
    rw [htk2, hdp2]
    conv_rhs => rw [← List.take_append_drop e.start r]
    rw [List.append_assoc]
    congr 1
    have hdd : r.drop (e.start + e.old.length) = (r.drop e.start).drop e.old.length := by
      rw [List.drop_drop, Nat.add_comm]
    rw [hdd]
    nth_rewrite 1 [← hold]
    exact List.take_append_drop _ _

lemma applyTexts_eq : ∀ (es : List Edit) (r : List Char),
    EditsMatch es r → applyTexts es r = some (spliceAll es r) := by
  intro es
  induction es with
  | nil => intro r _; rfl
  | cons e es ih =>
    intro r h
    rw [applyTexts, if_pos h.1.1, spliceAll_cons]
    exact ih (e.splice r) h.2

/-- Applying the inverse edits (reversed, contents swapped) to the result
of a fitting run restores the original text, and the inverse run itself
fits. -/
lemma editsMatch_roundtrip : ∀ (es : List Edit) (r : List Char),
    EditsMatch es r →
    EditsMatch ((es.map Edit.swap).reverse) (spliceAll es r) ∧
      spliceAll ((es.map Edit.swap).reverse) (spliceAll es r) = r := by
  intro es
  induction es with
  | nil => intro r _; exact ⟨trivial, rfl⟩
  | cons e es ih =>
    intro r h
    obtain ⟨hm, hrest⟩ := h
    obtain ⟨ihm, ihsplice⟩ := ih (e.splice r) hrest
    obtain ⟨hswap_m, hswap_s⟩ := matchesText_splice e r hm
    have hrw : ((e :: es).map Edit.swap).reverse =
        (es.map Edit.swap).reverse ++ [e.swap] := by simp
    rw [spliceAll_cons, hrw]
    constructor
    · apply editsMatch_append _ _ _ ihm
      rw [ihsplice]
      exact ⟨hswap_m, trivial⟩
    · rw [spliceAll_append, ihsplice, spliceAll_cons, spliceAll_nil]
      exact hswap_s

lemma Edit.swap_swap (e : Edit) : e.swap.swap = e := rfl

lemma EditTransaction.inverse_inverse (tr : EditTransaction) :
    tr.inverse.inverse = tr := by
  cases tr with
  | mk es =>
    simp only [EditTransaction.inverse, List.map_reverse, List.reverse_reverse,
      List.map_map]
    have : (Edit.swap ∘ Edit.swap) = id := rfl
    rw [this, List.map_id]

lemma undo_eq (G : Grammar) (b : Buffer) (trP : EditTransaction)
    (selP : SelectionSet) (rest : List Patch)
    (h : b.undo_patches = ⟨trP, selP⟩ :: rest) (cur : SelectionSet) :
    b.undo G cur =
      match Buffer.apply_edit_transaction G { b with undo_patches := rest }
          trP cur .Undo with
      | some (.ok b') => some (b', some selP)
      | _ => none := by
  cases b with
  | mk rope tree up rp =>
    cases h
    rfl

lemma redo_eq (G : Grammar) (b : Buffer) (trP : EditTransaction)
    (selP : SelectionSet) (rest : List Patch)
    (h : b.redo_patches = ⟨trP, selP⟩ :: rest) (cur : SelectionSet) :
    b.redo G cur =
      match Buffer.apply_edit_transaction G { b with redo_patches := rest }
          trP cur .Redo with
      | some (.ok b') => some (b', some selP)
      | _ => none := by
  cases b with
  | mk rope tree up rp =>
    cases h
    rfl

lemma undo_nil (G : Grammar) (b : Buffer) (h : b.undo_patches = []) (cur : SelectionSet) :
    b.undo G cur = some (b, none) := by
  cases b with
  | mk rope tree up rp =>
    cases h
    rfl

lemma redo_nil (G : Grammar) (b : Buffer) (h : b.redo_patches = []) (cur : SelectionSet) :
    b.redo G cur = some (b, none) := by
  cases b with
  | mk rope tree up rp =>
    cases h
    rfl

lemma inverse_edits_nil {tr : EditTransaction} (h : tr.inverse.edits = []) :
    tr.edits = [] := by
  cases tr with
  | mk es => simpa [EditTransaction.inverse] using h

/-- A concrete grammar for witnesses: any text parses to one root node
spanning all its bytes. -/
def flatGrammar : Grammar :=
  ⟨fun text _ => ⟨.mk 0 0 ((text.map Char.utf8Size).sum) true [], text⟩⟩

lemma flatGrammar_ok : GrammarOk flatGrammar := fun _ _ => rfl

/-- C1: after a successful `apply_edit` the tree held in the buffer is the
incremental reparse of the post-edit text with the previous (range-shifted)
tree as hint, so under the parser contract the tree's content is exactly
the rope's content. -/
theorem apply_edit_tree_matches_text (G : Grammar) (hG : GrammarOk G)
    (b : Buffer) (e : Edit) (r : Except String Buffer)
    (h : b.apply_edit G e = some r) :
    ∃ b', r = .ok b' ∧
      b'.tree = G.parse b'.rope (some (applyEditHint b e)) ∧
      b'.tree.content = b'.rope := by
  by_cases hle : e.start + e.old.length ≤ b.rope.length
  · rw [apply_edit_of_le G b e hle] at h
    obtain rfl : _ = r := Option.some_injective _ h
    exact ⟨_, rfl, rfl, hG _ _⟩
  · rw [apply_edit_of_lt G b e hle] at h
    cases h

def wB1 : Buffer := ⟨['a'], flatGrammar.parse ['a'] none, [], []⟩
def wE1 : Edit := ⟨0, ['a'], ['b']⟩

/-- Witness for C1 at a concrete buffer and edit. -/
theorem apply_edit_tree_matches_text_witness :
    GrammarOk flatGrammar ∧
    (∃ b', (Except.ok ⟨['b'], flatGrammar.parse ['b'] (some (applyEditHint wB1 wE1)), [], []⟩ :
        Except String Buffer) = .ok b' ∧
      b'.tree = flatGrammar.parse b'.rope (some (applyEditHint wB1 wE1)) ∧
      b'.tree.content = b'.rope) :=
  ⟨flatGrammar_ok,
    apply_edit_tree_matches_text flatGrammar flatGrammar_ok wB1 wE1 _ rfl⟩

/-- C3: the history state machine of `apply_edit_transaction` — a NewEdit
commit pushes the patch onto the undo stack and empties the redo stack, an
Undo commit pushes onto the redo stack, a Redo commit pushes onto the undo
stack; consequently after an undo followed by a NewEdit commit, `redo`
yields no result. -/
theorem history_state_machine (G : Grammar) (b : Buffer)
    (tr : EditTransaction) (sel : SelectionSet) :
    (∀ b', b.apply_edit_transaction G tr sel .NewEdit = some (.ok b') →
       b'.undo_patches = ⟨tr.inverse, sel⟩ :: b.undo_patches ∧
       b'.redo_patches = []) ∧
    (∀ b', b.apply_edit_transaction G tr sel .Undo = some (.ok b') →
       b'.redo_patches = ⟨tr.inverse, sel⟩ :: b.redo_patches ∧
       b'.undo_patches = b.undo_patches) ∧
    (∀ b', b.apply_edit_transaction G tr sel .Redo = some (.ok b') →
       b'.undo_patches = ⟨tr.inverse, sel⟩ :: b.undo_patches ∧
       b'.redo_patches = b.redo_patches) ∧
    (∀ (su curR : SelectionSet) (bu : Buffer) (ru : Option SelectionSet) b',
       b.undo G su = some (bu, ru) →
       bu.apply_edit_transaction G tr sel .NewEdit = some (.ok b') →
       b'.redo G curR = some (b', none)) := by
  refine ⟨?_, ?_, ?_, ?_⟩
  · intro b' h
    obtain ⟨b'', hr, -, -, hk, -, -⟩ := aet_ok G b tr sel .NewEdit _ h
    cases hr
    exact hk rfl
  · intro b' h
    obtain ⟨b'', hr, -, -, -, hk, -⟩ := aet_ok G b tr sel .Undo _ h
    cases hr
    exact hk rfl
  · intro b' h
    obtain ⟨b'', hr, -, -, -, -, hk⟩ := aet_ok G b tr sel .Redo _ h
    cases hr
    exact hk rfl
  · intro su curR bu ru b' hundo hcommit
    obtain ⟨b'', hr, -, -, hk, -, -⟩ := aet_ok G bu tr sel .NewEdit _ hcommit
    cases hr
    exact redo_nil G b' (hk rfl).2 curR

def wTr : EditTransaction := ⟨[wE1]⟩
def wSel : SelectionSet := ⟨[]⟩
def wB1n : Buffer :=
  ⟨['b'], flatGrammar.parse ['b'] (some (applyEditHint wB1 wE1)),
    [⟨wTr.inverse, wSel⟩], []⟩

/-- Witness for C3 at a concrete buffer and transaction. -/
theorem history_state_machine_witness :
    wB1n.undo_patches = ⟨wTr.inverse, wSel⟩ :: wB1.undo_patches ∧
      wB1n.redo_patches = [] :=
  (history_state_machine flatGrammar wB1 wTr wSel).1 wB1n rfl

/-- C9: `apply_edit` has no error exit — whenever its internal rope and
parser operations do not panic it returns `Ok` — hence the fold of
`apply_edit_transaction` never aborts on an `Err`, and every
non-panicking transaction commits with `Ok` and records its patch. -/
theorem apply_edit_never_errs (G : Grammar) :
    (∀ (b : Buffer) (e : Edit) (r : Except String Buffer),
       b.apply_edit G e = some r → ∃ b', r = .ok b') ∧
    (∀ (b : Buffer) (tr : EditTransaction) (sel : SelectionSet)
       (k : EditHistoryKind) (r : Except String Buffer),
       b.apply_edit_transaction G tr sel k = some r →
       ∃ b', r = .ok b' ∧
         ((k = .NewEdit ∨ k = .Redo) →
           b'.undo_patches.head? = some ⟨tr.inverse, sel⟩) ∧
         (k = .Undo → b'.redo_patches.head? = some ⟨tr.inverse, sel⟩)) := by
  constructor
  · intro b e r h
    by_cases hle : e.start + e.old.length ≤ b.rope.length
    · rw [apply_edit_of_le G b e hle] at h
      obtain rfl : _ = r := Option.some_injective _ h
      exact ⟨_, rfl⟩
    · rw [apply_edit_of_lt G b e hle] at h
      cases h
  · intro b tr sel k r h
    obtain ⟨b', hr, -, -, hn, hu, hd⟩ := aet_ok G b tr sel k r h
    refine ⟨b', hr, ?_, ?_⟩
    · rintro (rfl | rfl)
      · rw [(hn rfl).1]; rfl
      · rw [(hd rfl).1]; rfl
    · rintro rfl
      rw [(hu rfl).1]; rfl

/-- Witness for C9 at a concrete buffer, edit and transaction. -/
theorem apply_edit_never_errs_witness :
    (∃ b', (Except.ok ⟨['b'], flatGrammar.parse ['b']
        (some (applyEditHint wB1 wE1)), [], []⟩ : Except String Buffer) = .ok b') ∧
    (∃ b', (Except.ok wB1n : Except String Buffer) = .ok b' ∧
      ((EditHistoryKind.NewEdit = .NewEdit ∨ EditHistoryKind.NewEdit = .Redo) →
        b'.undo_patches.head? = some ⟨wTr.inverse, wSel⟩) ∧
      (EditHistoryKind.NewEdit = .Undo →
        b'.redo_patches.head? = some ⟨wTr.inverse, wSel⟩)) :=
  ⟨(apply_edit_never_errs flatGrammar).1 wB1 wE1 _ rfl,
    (apply_edit_never_errs flatGrammar).2 wB1 wTr wSel .NewEdit _ rfl⟩

/-- C2: applying a transaction and then its computed inverse restores the
text and (under the parser contract, with any hint-independent observation
of the parse, such as its error state) the syntax-tree state; undo after a
commit returns the prior text and the selection recorded at commit time,
and a subsequent redo returns the post-edit text and the selection current
when undo was called. -/
theorem edit_roundtrip_undo_redo {α : Type} (G : Grammar) (obs : Tree → α)
    (hobs : ∀ t h1 h2, obs (G.parse t h1) = obs (G.parse t h2))
    (b : Buffer) (tr : EditTransaction) (selS selS' curR : SelectionSet)
    (hparsed : ∃ h0, b.tree = G.parse b.rope h0)
    (hmatch : EditsMatch tr.edits b.rope)
    (b1 : Buffer)
    (h1 : b.apply_edit_transaction G tr selS .NewEdit = some (.ok b1)) :
    (∀ (sel2 : SelectionSet) (k2 : EditHistoryKind) (r2 : Except String Buffer),
       b1.apply_edit_transaction G tr.inverse sel2 k2 = some r2 →
       ∃ b2, r2 = .ok b2 ∧ b2.rope = b.rope ∧ obs b2.tree = obs b.tree) ∧
    (∃ b2, b1.undo G selS' = some (b2, some selS) ∧ b2.rope = b.rope ∧
       obs b2.tree = obs b.tree ∧
       ∃ b3, b2.redo G curR = some (b3, some selS') ∧ b3.rope = b1.rope ∧
         obs b3.tree = obs b1.tree) := by
  obtain ⟨h0, hp0⟩ := hparsed
  obtain ⟨b1', hr1, htexts1, htree1, hist1, -, -⟩ := aet_ok G b tr selS .NewEdit _ h1
  cases hr1
  obtain ⟨hist1u, hist1r⟩ := hist1 rfl
  -- the text level
  have hsplice1 : applyTexts tr.edits b.rope = some (spliceAll tr.edits b.rope) :=
    applyTexts_eq tr.edits b.rope hmatch
  have hrope1 : b1.rope = spliceAll tr.edits b.rope := by
    rw [hsplice1] at htexts1
    exact (Option.some_injective _ htexts1).symm
  obtain ⟨hmatchInv, hspliceInv⟩ := editsMatch_roundtrip tr.edits b.rope hmatch
  have hInvEdits : tr.inverse.edits = (tr.edits.map Edit.swap).reverse := rfl
  have htextsInv : applyTexts tr.inverse.edits b1.rope = some b.rope := by
    rw [hInvEdits, hrope1, applyTexts_eq _ _ hmatchInv, hspliceInv]
  -- observation of b1 is determined (when tr nonempty, b1.tree is a parse of b1.rope)
  -- common step: any successful application of tr.inverse from a buffer with
  -- b1's rope lands on b's rope and observation
  have key : ∀ (bb : Buffer), bb.rope = b1.rope →
      ∀ (sel2 : SelectionSet) (k2 : EditHistoryKind) (r2 : Except String Buffer),
      bb.apply_edit_transaction G tr.inverse sel2 k2 = some r2 →
      ∃ b2, r2 = .ok b2 ∧ b2.rope = b.rope ∧
        ((tr.inverse.edits = [] ∧ b2.tree = bb.tree) ∨
          ∃ hh, b2.tree = G.parse b2.rope (some hh)) := by
    intro bb hbb sel2 k2 r2 h2
    obtain ⟨b2, hr2, htexts2, htree2, -, -, -⟩ := aet_ok G bb tr.inverse sel2 k2 _ h2
    have hrope2 : b2.rope = b.rope := by
      rw [hbb, htextsInv] at htexts2
      exact (Option.some_injective _ htexts2).symm
    exact ⟨b2, hr2, hrope2, htree2⟩
  -- turning the tree disjunction into an observation equality with b
  have obs_of : ∀ (bb b2 : Buffer), bb.rope = b1.rope → obs bb.tree = obs b1.tree →
      b2.rope = b.rope →
      ((tr.inverse.edits = [] ∧ b2.tree = bb.tree) ∨
        ∃ hh, b2.tree = G.parse b2.rope (some hh)) →
      obs b2.tree = obs b.tree := by
    intro bb b2 hbbrope hbbobs hrope2 htree2
    rcases htree2 with ⟨hinvnil, hteq⟩ | ⟨hh, hteq⟩
    · -- empty transaction: everything was unchanged
      have hnil : tr.edits = [] := inverse_edits_nil hinvnil
      have hrope1' : b1.rope = b.rope := by
        rw [hrope1, hnil, spliceAll_nil]
      rcases htree1 with ⟨-, ht1⟩ | ⟨hh1, ht1⟩
      · rw [hteq, hbbobs, ht1]
      · rw [hteq, hbbobs, ht1, hrope1', hp0]
        exact hobs _ _ _
    · rw [hteq, hrope2, hp0]
      exact hobs _ _ _
  refine ⟨?_, ?_⟩
  · intro sel2 k2 r2 h2
    obtain ⟨b2, hr2, hrope2, htree2⟩ := key b1 rfl sel2 k2 r2 h2
    exact ⟨b2, hr2, hrope2, obs_of b1 b2 rfl rfl hrope2 htree2⟩
  · -- undo
    have hundo := undo_eq G b1 tr.inverse selS b.undo_patches hist1u selS'
    obtain ⟨b2, h2⟩ :=
      aet_some G { b1 with undo_patches := b.undo_patches } tr.inverse selS' .Undo b.rope
        (by rw [show ({ b1 with undo_patches := b.undo_patches } : Buffer).rope = b1.rope from rfl, htextsInv])
    obtain ⟨b2X, hr2, hrope2, htree2⟩ := key { b1 with undo_patches := b.undo_patches } rfl selS' .Undo _ h2
    cases hr2
    rw [h2] at hundo
    have hobs2 : obs b2.tree = obs b.tree :=
      obs_of { b1 with undo_patches := b.undo_patches } b2 rfl rfl hrope2 htree2
    obtain ⟨b2Y, hr2y, -, -, -, hist2, -⟩ :=
      aet_ok G { b1 with undo_patches := b.undo_patches } tr.inverse selS' .Undo _ h2
    cases hr2y
    obtain ⟨hist2r, hist2u⟩ := hist2 rfl
    have hb1redo : ({ b1 with undo_patches := b.undo_patches } : Buffer).redo_patches = [] := hist1r
    rw [hb1redo, EditTransaction.inverse_inverse] at hist2r
    -- redo
    have hredo := redo_eq G b2 tr selS' [] hist2r curR
    have hmatch2 : EditsMatch tr.edits ({ b2 with redo_patches := ([] : List Patch)} : Buffer).rope := by
      rw [show ({ b2 with redo_patches := ([] : List Patch)} : Buffer).rope = b2.rope from rfl, hrope2]
      exact hmatch
    obtain ⟨b3, h3⟩ := aet_some G { b2 with redo_patches := ([] : List Patch) } tr curR .Redo
      (spliceAll tr.edits b.rope)
      (by rw [show ({ b2 with redo_patches := ([] : List Patch)} : Buffer).rope = b2.rope from rfl,
            hrope2]; exact hsplice1)
    obtain ⟨b3X, hr3, htexts3, htree3, -, -, -⟩ :=
      aet_ok G { b2 with redo_patches := ([] : List Patch) } tr curR .Redo _ h3
    cases hr3
    rw [h3] at hredo
    have hrope3 : b3.rope = b1.rope := by
      rw [show ({ b2 with redo_patches := ([] : List Patch)} : Buffer).rope = b2.rope from rfl,
        hrope2, hsplice1] at htexts3
      rw [hrope1]
      exact (Option.some_injective _ htexts3).symm
    have hobs3 : obs b3.tree = obs b1.tree := by
      rcases htree3 with ⟨hnil, ht3⟩ | ⟨hh3, ht3⟩
      · have hrope1' : b1.rope = b.rope := by rw [hrope1, hnil, spliceAll_nil]
        rcases htree1 with ⟨-, ht1⟩ | ⟨hh1, ht1⟩
        · rw [ht3, show ({ b2 with redo_patches := ([] : List Patch)} : Buffer).tree = b2.tree from rfl,
            hobs2, ht1]
        · rw [ht3, show ({ b2 with redo_patches := ([] : List Patch)} : Buffer).tree = b2.tree from rfl,
            hobs2, ht1, hrope1', hp0]
          exact hobs _ _ _
      · rcases htree1 with ⟨hnil, ht1⟩ | ⟨hh1, ht1⟩
        · have hrope1' : b1.rope = b.rope := by rw [hrope1, hnil, spliceAll_nil]
          rw [ht3, hrope3, hrope1', ht1, hp0]
          exact hobs _ _ _
        · rw [ht3, hrope3, ht1]
          exact hobs _ _ _
    exact ⟨b2, hundo, hrope2, hobs2, b3, hredo, hrope3, hobs3⟩

def wSel2 : SelectionSet := ⟨[⟨0, 1, none⟩]⟩
def wSel3 : SelectionSet := ⟨[⟨1, 1, none⟩]⟩

/-- Witness for C2 at a concrete buffer, transaction and selections, with
the tree observed through its content. -/
theorem edit_roundtrip_undo_redo_witness :
    EditsMatch wTr.edits wB1.rope ∧
    ((∀ (sel2 : SelectionSet) (k2 : EditHistoryKind) (r2 : Except String Buffer),
        wB1n.apply_edit_transaction flatGrammar wTr.inverse sel2 k2 = some r2 →
        ∃ b2, r2 = .ok b2 ∧ b2.rope = wB1.rope ∧
          b2.tree.content = wB1.tree.content) ∧
      (∃ b2, wB1n.undo flatGrammar wSel2 = some (b2, some wSel) ∧
        b2.rope = wB1.rope ∧ b2.tree.content = wB1.tree.content ∧
        ∃ b3, b2.redo flatGrammar wSel3 = some (b3, some wSel2) ∧
          b3.rope = wB1n.rope ∧ b3.tree.content = wB1n.tree.content)) :=
  ⟨⟨⟨by decide, by decide⟩, trivial⟩,
    edit_roundtrip_undo_redo flatGrammar Tree.content
      (fun _ _ _ => rfl) wB1 wTr wSel wSel2 wSel3 ⟨none, rfl⟩
      ⟨⟨by decide, by decide⟩, trivial⟩ wB1n rfl⟩

lemma ropeByteToChar_isSome_iff :
    ∀ (r : List Char) (bt : Nat),
      (ropeByteToChar r bt).isSome ↔ bt ≤ (r.map Char.utf8Size).sum := by
  intro r
  induction r with
  | nil => intro bt; cases bt <;> simp [ropeByteToChar]
  | cons c cs ih =>
    intro bt
    rw [ropeByteToChar]
    by_cases hlt : bt < c.utf8Size
    · simp only [if_pos hlt, Option.isSome_some, true_iff, List.map_cons, List.sum_cons]
      omega
    · have hmap : (Option.map (fun x => x + 1) (ropeByteToChar cs (bt - c.utf8Size))).isSome
          = (ropeByteToChar cs (bt - c.utf8Size)).isSome := by
        cases ropeByteToChar cs (bt - c.utf8Size) <;> rfl
      simp only [if_neg hlt, hmap, ih, List.map_cons, List.sum_cons]
      omega

/-- C4 counterexample: on a one-character buffer, `char_to_line` at the
out-of-range index 2 panics (no value) instead of clamping, refuting
totality on every input. -/
theorem char_to_line_counterexample : wB1.char_to_line 2 = none := by decide

/-- C4 (amended): the coordinate conversions are pure functions of the
text storage that return a value on every in-range input (char index at
most the character count, line index at most the line count, byte index
at most the byte count) — `char_to_point` additionally defaulting its
column to 0 when the line-start lookup fails — but out-of-range input
makes them panic rather than clamp. -/
theorem coordinate_conversions_total_in_range (b : Buffer) :
    (∀ i, i ≤ b.rope.length → (b.char_to_line i).isSome) ∧
    (∀ i, b.rope.length < i → b.char_to_line i = none) ∧
    (∀ l, l ≤ b.rope.count '\n' + 1 → (b.line_to_char l).isSome) ∧
    (∀ l, b.rope.count '\n' + 1 < l → b.line_to_char l = none) ∧
    (∀ i, i ≤ b.rope.length → (b.char_to_byte i).isSome) ∧
    (∀ i, b.rope.length < i → b.char_to_byte i = none) ∧
    (∀ i, i ≤ b.rope.length → (b.char_to_point i).isSome) ∧
    (∀ i, b.rope.length < i → b.char_to_point i = none) ∧
    (∀ j, j ≤ (b.rope.map Char.utf8Size).sum → (b.byte_to_char j).isSome) ∧
    (∀ j, (b.rope.map Char.utf8Size).sum < j → b.byte_to_char j = none) := by
  refine ⟨?_, ?_, ?_, ?_, ?_, ?_, ?_, ?_, ?_, ?_⟩
  · intro i hi
    simp [Buffer.char_to_line, ropeCharToLine, hi]
  · intro i hi
    simp only [Buffer.char_to_line, ropeCharToLine, ite_eq_right_iff]
    omega
  · intro l hl
    simp [Buffer.line_to_char, ropeLineToChar, hl]
  · intro l hl
    simp only [Buffer.line_to_char, ropeLineToChar, ite_eq_right_iff]
    omega
  · intro i hi
    rw [Buffer.char_to_byte, ropeCharToByte_isSome_iff]
    exact hi
  · intro i hi
    rw [Buffer.char_to_byte, ← Option.not_isSome_iff_eq_none, ropeCharToByte_isSome_iff]
    omega
  · intro i hi
    rw [char_to_point_isSome_iff]
    exact hi
  · intro i hi
    rw [← Option.not_isSome_iff_eq_none, char_to_point_isSome_iff]
    omega
  · intro j hj
    rw [Buffer.byte_to_char, ropeByteToChar_isSome_iff]
    exact hj
  · intro j hj
    rw [Buffer.byte_to_char, ← Option.not_isSome_iff_eq_none, ropeByteToChar_isSome_iff]
    omega

/-- Witness for C4 (amended) at a concrete buffer and in-range indices. -/
theorem coordinate_conversions_total_in_range_witness :
    (wB1.char_to_line 1).isSome ∧ wB1.char_to_line 2 = none ∧
      (wB1.line_to_char 1).isSome ∧ (wB1.char_to_byte 1).isSome ∧
      (wB1.char_to_point 1).isSome ∧ (wB1.byte_to_char 1).isSome :=
  ⟨(coordinate_conversions_total_in_range wB1).1 1 (by decide),
    (coordinate_conversions_total_in_range wB1).2.1 2 (by decide),
    (coordinate_conversions_total_in_range wB1).2.2.1 1 (by decide),
    (coordinate_conversions_total_in_range wB1).2.2.2.2.1 1 (by decide),
    (coordinate_conversions_total_in_range wB1).2.2.2.2.2.2.1 1 (by decide),
    (coordinate_conversions_total_in_range wB1).2.2.2.2.2.2.2.2.1 1 (by decide)⟩

/-- C5 counterexample: with no remembered node identity and the
out-of-range cursor 5 on a one-character buffer, `get_current_node`
panics (inside `char_to_byte`) instead of returning a node. -/
theorem get_current_node_counterexample :
    wB1.get_current_node 5 ⟨0, 0, none⟩ = none := rfl

/-- C5 (amended): `get_current_node` returns a node whenever the cursor is
in range or a node identity is remembered: a remembered identity is
re-resolved against the current tree (the first pre-order node carrying
it), otherwise the nearest-node-after-position lookup is used, and when
either resolution finds nothing the tree root is returned; but an
out-of-range cursor with no remembered identity panics. -/
theorem get_current_node_cases (b : Buffer) (cursor : Nat) (sel : Selection) :
    (∀ nid, sel.node_id = some nid →
       ∃ n, b.get_current_node cursor sel = some n ∧
         ((∃ m ∈ b.tree.root_node.preorder, m.nid = nid) → n.nid = nid) ∧
         ((∀ m ∈ b.tree.root_node.preorder, m.nid ≠ nid) → n = b.tree.root_node)) ∧
    (sel.node_id = none → cursor ≤ b.rope.length →
       ∃ n byte, b.get_current_node cursor sel = some n ∧
         b.char_to_byte cursor = some byte ∧
         ((∃ m ∈ b.tree.root_node.preorder, byte ≤ m.start_byte) →
           byte ≤ n.start_byte) ∧
         ((∀ m ∈ b.tree.root_node.preorder, ¬ byte ≤ m.start_byte) →
           n = b.tree.root_node)) ∧
    (sel.node_id = none → b.rope.length < cursor →
       b.get_current_node cursor sel = none) := by
  refine ⟨?_, ?_, ?_⟩
  · intro nid hsel
    simp only [Buffer.get_current_node, hsel, Buffer.get_node_by_id]
    rcases hfind : b.tree.root_node.preorder.find? (fun node => node.nid = nid) with _ | n
    · simp only [hfind, Option.getD_none]
      refine ⟨b.tree.root_node, rfl, ?_, fun _ => rfl⟩
      rintro ⟨m, hm, hmn⟩
      rw [List.find?_eq_none] at hfind
      exact absurd (by simpa using hmn) (by simpa using hfind m hm)
    · simp only [hfind, Option.getD_some]
      refine ⟨n, rfl, fun _ => ?_, fun hall => ?_⟩
      · simpa using List.find?_some hfind
      · exact absurd (by simpa using List.find?_some hfind)
          (hall n (List.mem_of_find?_eq_some hfind))
  · intro hsel hcur
    obtain ⟨byte, hbyte⟩ :=
      isSome_exists ((ropeCharToByte_isSome_iff b.rope cursor).mpr hcur)
    simp only [Buffer.get_current_node, hsel, Buffer.get_nearest_node_after_char,
      Buffer.char_to_byte, hbyte, Option.map_some']
    rcases hfind : b.tree.root_node.preorder.find? (fun node => byte ≤ node.start_byte)
      with _ | n
    · simp only [hfind, Option.getD_none]
      refine ⟨b.tree.root_node, byte, rfl, rfl, ?_, fun _ => rfl⟩
      rintro ⟨m, hm, hmn⟩
      rw [List.find?_eq_none] at hfind
      exact absurd hmn (by simpa using hfind m hm)
    · simp only [hfind, Option.getD_some]
      refine ⟨n, byte, rfl, rfl, fun _ => ?_, fun hall => ?_⟩
      · simpa using List.find?_some hfind
      · exact absurd (by simpa using List.find?_some hfind)
          (hall n (List.mem_of_find?_eq_some hfind))
  · intro hsel hcur
    have hbyte : ropeCharToByte b.rope cursor = none := by
      rw [← Option.not_isSome_iff_eq_none, ropeCharToByte_isSome_iff]
      omega
    simp only [Buffer.get_current_node, hsel, Buffer.get_nearest_node_after_char,
      Buffer.char_to_byte, hbyte, Option.map_none']

/-- Witness for C5 (amended) on a concrete buffer: identity resolution
returns a node, and the panic case is exercised. -/
theorem get_current_node_cases_witness :
    (∃ n, wB1.get_current_node 0 ⟨0, 0, some 0⟩ = some n ∧
       ((∃ m ∈ wB1.tree.root_node.preorder, m.nid = 0) → n.nid = 0) ∧
       ((∀ m ∈ wB1.tree.root_node.preorder, m.nid ≠ 0) → n = wB1.tree.root_node)) ∧
    wB1.get_current_node 5 ⟨0, 0, none⟩ = none :=
  ⟨(get_current_node_cases wB1 0 ⟨0, 0, some 0⟩).1 0 rfl,
    (get_current_node_cases wB1 5 ⟨0, 0, none⟩).2.2 rfl (by decide)⟩

def cB6 : Buffer :=
  ⟨['a', 'b', 'c'], ⟨.mk 0 0 3 true [], ['a', 'b', 'c']⟩, [], []⟩

/-- C6 counterexample: with a single token spanning bytes 0..3, the query
position 1 lies strictly inside it and `get_next_token` returns that very
token — a node that is not strictly after the query position (its start
precedes the position). -/
theorem get_next_token_counterexample :
    cB6.get_next_token 1 false = some (some (.mk 0 0 3 true [])) ∧
      (Node.mk 0 0 3 true []).start_byte < 1 ∧
      1 < (Node.mk 0 0 3 true []).end_byte :=
  ⟨rfl, by decide, by decide⟩

lemma find?_filter {α : Type} (l : List α) (p q : α → Bool) :
    (l.filter p).find? q = l.find? (fun a => p a && q a) := by
  induction l with
  | nil => rfl
  | cons x xs ih =>
    by_cases hp : p x <;> by_cases hq : q x <;>
      simp [List.filter_cons, hp, hq, List.find?_cons, ih]

lemma find?_eq_some_split {α : Type} {l : List α} {q : α → Bool} {n : α}
    (h : l.find? q = some n) :
    ∃ t1 t2, l = t1 ++ n :: t2 ∧ ∀ x ∈ t1, q x = false := by
  induction l with
  | nil => cases h
  | cons x xs ih =>
    by_cases hq : q x
    · rw [List.find?_cons_of_pos _ hq] at h
      obtain rfl := Option.some_injective _ h
      exact ⟨[], xs, rfl, by simp⟩
    · rw [List.find?_cons_of_neg _ (by simpa using hq)] at h
      obtain ⟨t1, t2, rfl, hfail⟩ := ih h
      refine ⟨x :: t1, t2, rfl, ?_⟩
      intro y hy
      rcases List.mem_cons.mp hy with rfl | hy'
      · simpa using hq
      · exact hfail y hy'

lemma getLast?_eq_some_split {α : Type} :
    ∀ {l : List α} {p : α}, l.getLast? = some p → ∃ l', l = l' ++ [p] := by
  intro l
  induction l with
  | nil => intro p h; cases h
  | cons x xs ih =>
    intro p h
    cases xs with
    | nil =>
      obtain rfl : x = p := by simpa [List.getLast?] using h
      exact ⟨[], rfl⟩
    | cons y ys =>
      rw [List.getLast?_cons_cons] at h
      obtain ⟨l', hl'⟩ := ih h
      exact ⟨x :: l', by rw [hl']; rfl⟩

/-- Proof layer: the buffer's token sequence — the post-order leaves
(child count zero), optionally restricted to named nodes, in traversal
order. -/
def Buffer.token_leaves (b : Buffer) (is_named : Bool) : List Node :=
  b.tree.root_node.postorder.filter fun node =>
    node.child_count = 0 ∧ (!is_named ∨ node.is_named)

/-- C6 (amended): both token queries traverse post-order and consider only
leaf nodes (child count zero), optionally restricted to named nodes;
`get_next_token` returns the first such leaf whose end lies strictly past
the query position (which may contain the position), `get_prev_token` the
last such leaf beginning strictly before it; at a position strictly inside
no considered leaf (a token boundary), the two never return the same node
and the returned nodes have non-overlapping byte ranges adjacent in
document order: for a well-formed token sequence (ranges ordered along
the traversal) no nonempty considered token lies between them. -/
theorem token_queries (b : Buffer) (i : Nat) (is_named : Bool) (byte : Nat)
    (hbyte : b.char_to_byte i = some byte) :
    (∀ n, b.get_next_token i is_named = some (some n) →
       n.child_count = 0 ∧ (!is_named ∨ n.is_named) ∧ byte < n.end_byte) ∧
    (∀ p, b.get_prev_token i is_named = some (some p) →
       p.child_count = 0 ∧ (!is_named ∨ p.is_named) ∧ p.start_byte < byte) ∧
    (∀ n p, b.get_next_token i is_named = some (some n) →
       b.get_prev_token i is_named = some (some p) →
       (∀ m ∈ b.tree.root_node.postorder,
          m.child_count = 0 → (!is_named ∨ m.is_named) →
          ¬ (m.start_byte < byte ∧ byte < m.end_byte)) →
       p ≠ n ∧ p.end_byte ≤ byte ∧ byte ≤ n.start_byte ∧
       ((∀ m ∈ b.token_leaves is_named, m.start_byte ≤ m.end_byte) →
        (b.token_leaves is_named).Pairwise
          (fun a c => a.end_byte ≤ c.start_byte) →
        ∀ m ∈ b.token_leaves is_named, m.start_byte < m.end_byte →
          ¬ (p.end_byte ≤ m.start_byte ∧ m.end_byte ≤ n.start_byte))) := by
  have hconv_next : ∀ n, b.get_next_token i is_named = some (some n) →
      (b.token_leaves is_named).find?
        (fun node => byte < node.end_byte) = some n := by
    intro n hn
    rw [Buffer.get_next_token, hbyte, Option.map_some'] at hn
    have hfind := Option.some_injective _ hn
    rw [Buffer.token_leaves, find?_filter]
    rw [show (fun node : Node =>
        decide (node.child_count = 0 ∧ (!is_named ∨ node.is_named)) &&
          decide (byte < node.end_byte)) =
      (fun node : Node =>
        decide (node.child_count = 0 ∧ (!is_named ∨ node.is_named) ∧
          byte < node.end_byte)) from by
        funext node
        simp [Bool.decide_and, Bool.and_assoc]]
    exact hfind
  have hconv_prev : ∀ p, b.get_prev_token i is_named = some (some p) →
      ((b.token_leaves is_named).filter
        (fun node => node.start_byte < byte)).getLast? = some p := by
    intro p hp
    rw [Buffer.get_prev_token, hbyte, Option.map_some'] at hp
    have hlast := Option.some_injective _ hp
    rw [Buffer.token_leaves, List.filter_filter]
    rw [show (fun a : Node => decide (a.start_byte < byte) &&
        decide (a.child_count = 0 ∧ (!is_named ∨ a.is_named))) =
      (fun node : Node =>
        decide (node.child_count = 0 ∧ (!is_named ∨ node.is_named) ∧
          node.start_byte < byte)) from by
        funext node
        simp [Bool.decide_and, Bool.and_assoc, Bool.and_comm, Bool.and_left_comm]]
    exact hlast
  have htoks_mem : ∀ m ∈ b.token_leaves is_named,
      m ∈ b.tree.root_node.postorder ∧ m.child_count = 0 ∧
        (!is_named ∨ m.is_named) := by
    intro m hm
    rw [Buffer.token_leaves, List.mem_filter] at hm
    refine ⟨hm.1, ?_⟩
    have := hm.2
    simpa using this
  have hnext : ∀ n, b.get_next_token i is_named = some (some n) →
      n ∈ b.tree.root_node.postorder ∧
        n.child_count = 0 ∧ (!is_named ∨ n.is_named) ∧ byte < n.end_byte := by
    intro n hn
    have hfind := hconv_next n hn
    have hmem := htoks_mem n (List.mem_of_find?_eq_some hfind)
    have hprop := List.find?_some hfind
    exact ⟨hmem.1, hmem.2.1, hmem.2.2, by simpa using hprop⟩
  have hprev : ∀ p, b.get_prev_token i is_named = some (some p) →
      p ∈ b.tree.root_node.postorder ∧
        p.child_count = 0 ∧ (!is_named ∨ p.is_named) ∧ p.start_byte < byte := by
    intro p hp
    have hlast := hconv_prev p hp
    have hmem0 := List.mem_of_mem_getLast? hlast
    rw [List.mem_filter] at hmem0
    have hmem := htoks_mem p hmem0.1
    exact ⟨hmem.1, hmem.2.1, hmem.2.2, by simpa using hmem0.2⟩
  refine ⟨fun n hn => (hnext n hn).2, fun p hp => (hprev p hp).2, ?_⟩
  intro n p hn hp hboundary
  obtain ⟨hnm, hnc, hnn, hne⟩ := hnext n hn
  obtain ⟨hpm, hpc, hpn, hps⟩ := hprev p hp
  have hnb := hboundary n hnm hnc hnn
  have hpb := hboundary p hpm hpc hpn
  have hns : byte ≤ n.start_byte := by
    by_contra hlt
    exact hnb ⟨by omega, hne⟩
  have hpe : p.end_byte ≤ byte := by
    by_contra hlt
    exact hpb ⟨hps, by omega⟩
  refine ⟨?_, hpe, hns, ?_⟩
  · intro heq
    rw [heq] at hps
    omega
  · -- adjacency among the considered tokens
    rintro hwf hsorted m hmtok hmne ⟨h1, h2⟩
    obtain ⟨hmpost, hmc, hmn⟩ := htoks_mem m hmtok
    have hmb := hboundary m hmpost hmc hmn
    by_cases hcase : m.end_byte ≤ byte
    · -- m would be a prev-candidate occurring after p in document order
      have hmslt : m.start_byte < byte := by omega
      have hmfilt : m ∈ (b.token_leaves is_named).filter
          (fun node => node.start_byte < byte) := by
        rw [List.mem_filter]
        exact ⟨hmtok, by simpa using hmslt⟩
      obtain ⟨l', hl'⟩ := getLast?_eq_some_split (hconv_prev p hp)
      rw [hl'] at hmfilt
      have hsorted' : ((b.token_leaves is_named).filter
          (fun node => node.start_byte < byte)).Pairwise
          (fun a c => a.end_byte ≤ c.start_byte) :=
        hsorted.sublist (List.filter_sublist _)
      rw [hl', List.pairwise_append] at hsorted'
      rcases List.mem_append.mp hmfilt with hml' | hmp
      · have hrel := hsorted'.2.2 m hml' p (List.mem_singleton_self p)
        have hwp : p.start_byte ≤ p.end_byte := by
          apply hwf p
          apply List.mem_of_mem_filter (p := fun node => node.start_byte < byte)
          rw [hl']
          simp
        omega
      · obtain rfl : m = p := List.mem_singleton.mp hmp
        have hwp := hwf m hmtok
        omega
    · -- m would be a next-candidate: byte ≤ m.start, so m.end > byte
      have hmge : byte ≤ m.start_byte := by
        by_contra hlt
        exact hmb ⟨by omega, by omega⟩
      have hmE : byte < m.end_byte := by omega
      obtain ⟨t1, t2, hsplit, hfail⟩ := find?_eq_some_split (hconv_next n hn)
      have hmtok' := hmtok
      rw [hsplit] at hmtok'
      rcases List.mem_append.mp hmtok' with hm1 | hm2
      · have := hfail m hm1
        simp at this
        omega
      · rcases List.mem_cons.mp hm2 with rfl | hm3
        · have hwn := hwf m hmtok
          omega
        · have hsorted' := hsorted
          rw [hsplit, List.pairwise_append] at hsorted'
          have hrel := (List.pairwise_cons.mp hsorted'.2.1).1 m hm3
          have hwn : n.start_byte ≤ n.end_byte := by
            apply hwf n
            rw [hsplit]
            simp
          omega

def wT6 : Tree :=
  ⟨.mk 0 0 3 true [.mk 1 0 1 true [], .mk 2 1 3 true []], ['a', 'b', 'c']⟩
def wB6 : Buffer := ⟨['a', 'b', 'c'], wT6, [], []⟩

/-- Witness for C6 (amended): at the boundary between the two tokens of a
concrete tree, next and prev return the two distinct adjacent tokens, and
no nonempty token lies between them. -/
theorem token_queries_witness :
    (Node.mk 1 0 1 true []) ≠ (Node.mk 2 1 3 true []) ∧
      (Node.mk 1 0 1 true []).end_byte ≤ 1 ∧
      1 ≤ (Node.mk 2 1 3 true []).start_byte ∧
      (∀ m ∈ wB6.token_leaves false, m.start_byte < m.end_byte →
        ¬ ((Node.mk 1 0 1 true []).end_byte ≤ m.start_byte ∧
          m.end_byte ≤ (Node.mk 2 1 3 true []).start_byte)) :=
  have h := (token_queries wB6 1 false 1 rfl).2.2 (.mk 2 1 3 true [])
    (.mk 1 0 1 true []) rfl rfl (by decide)
  ⟨h.1, h.2.1, h.2.2.1, h.2.2.2 (by decide) (by decide)⟩

lemma get_channel_insert_self (m : LspManager) (l : Language)
    (ch : LspServerProcessChannel) :
    (m.insert_channel l ch).get_channel l = some ch := by
  simp [LspManager.insert_channel, LspManager.get_channel, List.find?_cons]

/-- The language an observable effect concerns. -/
def LspEffect.language : LspEffect → Language
  | .spawned l => l
  | .did_open_sent l _ => l

/-- Proof layer: the effects `open_file` produces for one language, as a
function of the channel map at that language's turn (spawn recorded for
an absent channel, a document-open send for an initialized one, nothing
for a spawned-but-uninitialized one). -/
def open_file_language_effects
    (spawn_lsp : Language → Except String LspServerProcessChannel)
    (path : CanonicalizedPath) (m : LspManager) (language : Language) :
    List LspEffect :=
  match m.get_channel language with
  | some channel =>
    if channel.is_initialized then [.did_open_sent language path] else []
  | none =>
    match spawn_lsp language with
    | .ok _ => [.spawned language]
    | .error _ => []

/-- Proof layer: the per-language outcome `open_file` collects for the
consolidation policy. -/
def open_file_language_result
    (spawn_lsp : Language → Except String LspServerProcessChannel)
    (path : CanonicalizedPath) (m : LspManager) (language : Language) :
    Except String Unit :=
  match m.get_channel language with
  | some channel =>
    if channel.is_initialized then channel.document_did_open path else .ok ()
  | none =>
    match spawn_lsp language with
    | .ok _ => .ok ()
    | .error e => .error e

/-- Proof layer: the channel-map updates of `open_file`, language by
language. -/
def open_file_map_update
    (spawn_lsp : Language → Except String LspServerProcessChannel) :
    List Language → LspManager → LspManager
  | [], m => m
  | l :: ls, m =>
    open_file_map_update spawn_lsp ls
      (match m.get_channel l with
       | some _ => m
       | none =>
         match spawn_lsp l with
         | .ok channel => m.insert_channel l channel
         | .error _ => m)

lemma find?_key_filter_ne (xs : List (Language × LspServerProcessChannel))
    (l l' : Language) (h : l ≠ l') :
    (xs.filter (fun p => ¬(p.1 = l))).find? (fun p => p.1 = l') =
      xs.find? (fun p => p.1 = l') := by
  induction xs with
  | nil => rfl
  | cons x xs ih =>
    by_cases hx : x.1 = l'
    · have hxl : ¬ (x.1 = l) := by rw [hx]; exact fun hc => h hc.symm
      rw [List.filter_cons_of_pos (by simpa using hxl)]
      rw [List.find?_cons_of_pos _ (by simpa using hx),
        List.find?_cons_of_pos _ (by simpa using hx)]
    · by_cases hxl : x.1 = l
      · rw [List.filter_cons_of_neg (by simpa using hxl), ih,
          List.find?_cons_of_neg _ (by simpa using hx)]
      · rw [List.filter_cons_of_pos (by simpa using hxl),
          List.find?_cons_of_neg _ (by simpa using hx),
          List.find?_cons_of_neg _ (by simpa using hx), ih]

lemma get_channel_insert_ne (m : LspManager) (l l' : Language)
    (ch : LspServerProcessChannel) (h : l ≠ l') :
    (m.insert_channel l ch).get_channel l' = m.get_channel l' := by
  rw [LspManager.insert_channel, LspManager.get_channel, LspManager.get_channel]
  rw [show ((l, ch) :: m.lsp_server_process_channels.filter fun p => ¬(p.1 = l))
      = (l, ch) :: (m.lsp_server_process_channels.filter fun p => ¬(p.1 = l))
    from rfl]
  rw [List.find?_cons_of_neg _ (by simpa using h)]
  rw [find?_key_filter_ne _ l l' h]

lemma language_effects_congr (spawn_lsp) (path : CanonicalizedPath)
    (m1 m2 : LspManager) (l : Language)
    (h : m1.get_channel l = m2.get_channel l) :
    open_file_language_effects spawn_lsp path m1 l =
      open_file_language_effects spawn_lsp path m2 l := by
  rw [open_file_language_effects, open_file_language_effects, h]

lemma language_result_congr (spawn_lsp) (path : CanonicalizedPath)
    (m1 m2 : LspManager) (l : Language)
    (h : m1.get_channel l = m2.get_channel l) :
    open_file_language_result spawn_lsp path m1 l =
      open_file_language_result spawn_lsp path m2 l := by
  rw [open_file_language_result, open_file_language_result, h]

lemma flatMap_congr_mem {α β : Type} {l : List α} {f g : α → List β}
    (h : ∀ a ∈ l, f a = g a) : l.flatMap f = l.flatMap g := by
  induction l with
  | nil => rfl
  | cons x xs ih =>
    rw [List.flatMap_cons, List.flatMap_cons, h x (List.mem_cons_self x xs),
      ih fun a ha => h a (List.mem_cons_of_mem x ha)]

/-- One step of the `open_file` fold, named per its three cases. -/
lemma open_file_step_eq (spawn_lsp) (path : CanonicalizedPath)
    (m : LspManager) (efs : List LspEffect) (rs : List (Except String Unit))
    (l : Language) :
    open_file_step spawn_lsp path (m, efs, rs) l =
      ((match m.get_channel l with
        | some _ => m
        | none =>
          match spawn_lsp l with
          | .ok channel => m.insert_channel l channel
          | .error _ => m),
       efs ++ open_file_language_effects spawn_lsp path m l,
       rs ++ [open_file_language_result spawn_lsp path m l]) := by
  rw [open_file_step]
  rcases hch : m.get_channel l with _ | ch
  · rcases hsp : spawn_lsp l with e | ch2 <;>
      simp [open_file_language_effects, open_file_language_result, hch, hsp]
  · by_cases hinit : ch.is_initialized <;>
      simp [open_file_language_effects, open_file_language_result, hch, hinit]

/-- The `open_file` fold, unrolled: with each language of the path distinct
(the registry returns a set), every language's contribution is a function
of the original channel map at that language. -/
lemma open_file_fold_eq (spawn_lsp) (path : CanonicalizedPath) :
    ∀ (ls : List Language) (m : LspManager) (efs : List LspEffect)
      (rs : List (Except String Unit)), ls.Nodup →
    ls.foldl (open_file_step spawn_lsp path) (m, efs, rs) =
      (open_file_map_update spawn_lsp ls m,
       efs ++ ls.flatMap (open_file_language_effects spawn_lsp path m),
       rs ++ ls.map (open_file_language_result spawn_lsp path m)) := by
  intro ls
  induction ls with
  | nil =>
    intro m efs rs _
    simp [open_file_map_update]
  | cons l ls ih =>
    intro m efs rs hnodup
    have hnotmem : l ∉ ls := (List.nodup_cons.mp hnodup).1
    have hnodup' : ls.Nodup := (List.nodup_cons.mp hnodup).2
    rw [List.foldl_cons, open_file_step_eq]
    set mstep : LspManager :=
      (match m.get_channel l with
       | some _ => m
       | none =>
         match spawn_lsp l with
         | .ok channel => m.insert_channel l channel
         | .error _ => m) with hmstep
    have hstable : ∀ l' ∈ ls, mstep.get_channel l' = m.get_channel l' := by
      intro l' hl'
      have hne : l ≠ l' := fun hc => hnotmem (hc ▸ hl')
      rw [hmstep]
      rcases hch : m.get_channel l with _ | ch
      · rcases hsp : spawn_lsp l with e | ch2
        · rfl
        · exact get_channel_insert_ne m l l' ch2 hne
      · rfl
    rw [ih mstep _ _ hnodup']
    refine congrArg₂ _ ?_ (congrArg₂ _ ?_ ?_)
    · rw [open_file_map_update]
    · rw [List.flatMap_cons, List.append_assoc]
      exact congrArg _ (congrArg _
        (flatMap_congr_mem fun l' hl' =>
          language_effects_congr spawn_lsp path mstep m l' (hstable l' hl')))
    · rw [List.map_cons]
      rw [show rs ++ [open_file_language_result spawn_lsp path m l] ++
          ls.map (open_file_language_result spawn_lsp path mstep) =
        rs ++ (open_file_language_result spawn_lsp path m l ::
          ls.map (open_file_language_result spawn_lsp path mstep)) from by
          rw [List.append_assoc]; rfl]
      exact congrArg _ (congrArg _
        (List.map_congr_left fun l' hl' =>
          language_result_congr spawn_lsp path mstep m l' (hstable l' hl')))

/-- `open_file`, characterized per language (path languages distinct). -/
lemma open_file_eq (m : LspManager)
    (get_languages : CanonicalizedPath → List Language)
    (spawn_lsp : Language → Except String LspServerProcessChannel)
    (path : CanonicalizedPath) (hnodup : (get_languages path).Nodup) :
    m.open_file get_languages spawn_lsp path =
      (open_file_map_update spawn_lsp (get_languages path) m,
       (get_languages path).flatMap
         (open_file_language_effects spawn_lsp path m),
       consolidate_errors "Failed to start language server"
         ((get_languages path).map
           (open_file_language_result spawn_lsp path m))) := by
  rw [LspManager.open_file,
    open_file_fold_eq spawn_lsp path (get_languages path) m [] [] hnodup]
  simp

lemma open_file_map_update_get_not_mem (spawn_lsp) :
    ∀ (ls : List Language) (m : LspManager) (l : Language), l ∉ ls →
    (open_file_map_update spawn_lsp ls m).get_channel l = m.get_channel l := by
  intro ls
  induction ls with
  | nil => intro m l _; rfl
  | cons l' ls ih =>
    intro m l hl
    have hne : l' ≠ l := fun hc => hl (hc ▸ List.mem_cons_self l' ls)
    have hl' : l ∉ ls := fun hc => hl (List.mem_cons_of_mem l' hc)
    rw [open_file_map_update, ih _ l hl']
    rcases hch : m.get_channel l' with _ | ch
    · rcases hsp : spawn_lsp l' with e | ch2
      · rfl
      · exact get_channel_insert_ne m l' l ch2 hne
    · rfl

lemma open_file_map_update_get_mem (spawn_lsp) :
    ∀ (ls : List Language) (m : LspManager) (l : Language),
    ls.Nodup → l ∈ ls →
    (open_file_map_update spawn_lsp ls m).get_channel l =
      (match m.get_channel l with
       | some ch => some ch
       | none =>
         match spawn_lsp l with
         | .ok ch => some ch
         | .error _ => none) := by
  intro ls
  induction ls with
  | nil => intro m l _ h; cases h
  | cons l' ls ih =>
    intro m l hnodup hl
    have hnotmem : l' ∉ ls := (List.nodup_cons.mp hnodup).1
    have hnodup' : ls.Nodup := (List.nodup_cons.mp hnodup).2
    rw [open_file_map_update]
    rcases List.mem_cons.mp hl with rfl | hltail
    · rw [open_file_map_update_get_not_mem spawn_lsp ls _ l hnotmem]
      rcases hch : m.get_channel l with _ | ch
      · rcases hsp : spawn_lsp l with e | ch2
        · rw [hch]
        · rw [get_channel_insert_self]
      · rw [hch]
    · have hne : l' ≠ l := fun hc => hnotmem (hc ▸ hltail)
      rw [ih _ l hnodup' hltail]
      rcases hch : m.get_channel l' with _ | ch
      · rcases hsp : spawn_lsp l' with e | ch2
        · rfl
        · rw [get_channel_insert_ne m l' l ch2 hne]
      · rfl

lemma mem_language_effects (spawn_lsp) (path : CanonicalizedPath)
    (m : LspManager) (l : Language) :
    ∀ e ∈ open_file_language_effects spawn_lsp path m l, e.language = l := by
  intro e he
  rcases hch : m.get_channel l with _ | ch
  · rcases hsp : spawn_lsp l with er | ch2
    · simp [open_file_language_effects, hch, hsp] at he
    · simp [open_file_language_effects, hch, hsp] at he
      rw [he]
      rfl
  · by_cases hinit : ch.is_initialized
    · simp [open_file_language_effects, hch, hinit] at he
      rw [he]
      rfl
    · simp [open_file_language_effects, hch, hinit] at he

lemma count_spawned_flatMap (spawn_lsp) (path : CanonicalizedPath)
    (m : LspManager) (l : Language) :
    ∀ ls : List Language, l ∉ ls →
    ((ls.flatMap (open_file_language_effects spawn_lsp path m)).count
      (LspEffect.spawned l)) = 0 := by
  intro ls
  induction ls with
  | nil => intro _; rfl
  | cons l' ls ih =>
    intro hl
    have hne : l' ≠ l := fun hc => hl (hc ▸ List.mem_cons_self l' ls)
    have hl' : l ∉ ls := fun hc => hl (List.mem_cons_of_mem l' hc)
    rw [List.flatMap_cons, List.count_append, ih hl', Nat.add_zero]
    rw [List.count_eq_zero]
    intro hc
    have := mem_language_effects spawn_lsp path m l' _ hc
    exact hne (by simpa [LspEffect.language] using this.symm)

lemma count_spawned_flatMap_mem (spawn_lsp) (path : CanonicalizedPath)
    (m : LspManager) (l : Language) :
    ∀ ls : List Language, ls.Nodup → l ∈ ls →
    ((ls.flatMap (open_file_language_effects spawn_lsp path m)).count
      (LspEffect.spawned l)) =
      (open_file_language_effects spawn_lsp path m l).count
        (LspEffect.spawned l) := by
  intro ls
  induction ls with
  | nil => intro _ h; cases h
  | cons l' ls ih =>
    intro hnodup hl
    have hnotmem : l' ∉ ls := (List.nodup_cons.mp hnodup).1
    have hnodup' : ls.Nodup := (List.nodup_cons.mp hnodup).2
    rw [List.flatMap_cons, List.count_append]
    rcases List.mem_cons.mp hl with rfl | hltail
    · rw [count_spawned_flatMap spawn_lsp path m l ls hnotmem, Nat.add_zero]
    · have hne : l' ≠ l := fun hc => hnotmem (hc ▸ hltail)
      rw [ih hnodup' hltail]
      have hzero : ((open_file_language_effects spawn_lsp path m l').count
          (LspEffect.spawned l)) = 0 := by
        rw [List.count_eq_zero]
        intro hc
        have := mem_language_effects spawn_lsp path m l' _ hc
        exact hne (by simpa [LspEffect.language] using this.symm)
      rw [hzero, Nat.zero_add]

lemma mark_initialized_get_self (m : LspManager) (l : Language)
    (docs : List CanonicalizedPath) (ch : LspServerProcessChannel)
    (h : m.get_channel l = some ch) :
    ((m.mark_initialized l docs).1).get_channel l =
      some { ch with is_initialized := true } := by
  rw [LspManager.mark_initialized, h]
  exact get_channel_insert_self m l _

lemma consolidate_errors_ok (label : String)
    (results : List (Except String Unit))
    (h : ∀ r ∈ results, r = .ok ()) :
    consolidate_errors label results = .ok () := by
  rw [consolidate_errors]
  have hnil : results.filterMap
      (fun r => match r with | .error reason => some reason | .ok _ => none)
      = [] := by
    rw [List.filterMap_eq_nil_iff]
    intro r hr
    rw [h r hr]
  simp [hnil]

lemma consolidate_errors_error (label : String)
    (results : List (Except String Unit)) (e : String)
    (h : Except.error e ∈ results) :
    ∃ reasons, consolidate_errors label results = .error ⟨label, reasons⟩ ∧
      e ∈ reasons ∧
      reasons = results.filterMap
        (fun r => match r with | .error reason => some reason | .ok _ => none) := by
  have hml : e ∈ results.filterMap
      (fun r => match r with | .error reason => some reason | .ok _ => none) := by
    rw [List.mem_filterMap]
    exact ⟨.error e, h, rfl⟩
  refine ⟨_, ?_, hml, rfl⟩
  rw [consolidate_errors]
  rw [if_neg]
  intro hcon
  rcases hE : results.filterMap
      (fun r => match r with | .error reason => some reason | .ok _ => none)
    with _ | ⟨x, xs⟩
  · rw [hE] at hml; cases hml
  · rw [hE] at hcon; cases hcon

/-- C7: for every language the path maps to (the registry returns a set,
so the languages are distinct), `open_file` performs the three-way case
split — no channel: spawn one and insert it into the map at once, before
any initialization; an initialized channel: send it a document-open
notification; a spawned-but-uninitialized channel: do nothing — with the
per-language effects, outcomes and map updates characterized as functions
of the entry map; and two calls for the same previously-unseen language
spawn exactly one channel, the second call (once the channel is
initialized) producing a document-open notification, not a second spawn. -/
theorem open_file_spec (m : LspManager)
    (get_languages : CanonicalizedPath → List Language)
    (spawn_lsp : Language → Except String LspServerProcessChannel)
    (path : CanonicalizedPath)
    (hnodup : (get_languages path).Nodup) :
    (m.open_file get_languages spawn_lsp path =
      (open_file_map_update spawn_lsp (get_languages path) m,
       (get_languages path).flatMap
         (open_file_language_effects spawn_lsp path m),
       consolidate_errors "Failed to start language server"
         ((get_languages path).map
           (open_file_language_result spawn_lsp path m)))) ∧
    (∀ l ∈ get_languages path,
      (∀ ch, m.get_channel l = none → spawn_lsp l = .ok ch →
         open_file_language_effects spawn_lsp path m l = [.spawned l] ∧
         open_file_language_result spawn_lsp path m l = .ok () ∧
         (m.open_file get_languages spawn_lsp path).1.get_channel l =
           some ch) ∧
      (∀ ch, m.get_channel l = some ch → ch.is_initialized = true →
         open_file_language_effects spawn_lsp path m l =
           [.did_open_sent l path] ∧
         open_file_language_result spawn_lsp path m l =
           ch.document_did_open path ∧
         (m.open_file get_languages spawn_lsp path).1.get_channel l =
           some ch) ∧
      (∀ ch, m.get_channel l = some ch → ch.is_initialized = false →
         open_file_language_effects spawn_lsp path m l = [] ∧
         open_file_language_result spawn_lsp path m l = .ok () ∧
         (m.open_file get_languages spawn_lsp path).1.get_channel l =
           some ch)) ∧
    (∀ l ∈ get_languages path, ∀ ch docs,
       m.get_channel l = none → spawn_lsp l = .ok ch →
       (m.open_file get_languages spawn_lsp path).2.1.count (.spawned l) = 1 ∧
       ((((m.open_file get_languages spawn_lsp path).1.mark_initialized l
           docs).1.open_file get_languages spawn_lsp path).2.1.count
         (.spawned l) = 0 ∧
        LspEffect.did_open_sent l path ∈
          (((m.open_file get_languages spawn_lsp path).1.mark_initialized l
            docs).1.open_file get_languages spawn_lsp path).2.1)) := by
  have hfull := open_file_eq m get_languages spawn_lsp path hnodup
  have hmap1 : ∀ l ∈ get_languages path,
      (m.open_file get_languages spawn_lsp path).1.get_channel l =
        (match m.get_channel l with
         | some ch => some ch
         | none =>
           match spawn_lsp l with
           | .ok ch => some ch
           | .error _ => none) := by
    intro l hl
    rw [hfull]
    exact open_file_map_update_get_mem spawn_lsp (get_languages path) m l
      hnodup hl
  refine ⟨hfull, ?_, ?_⟩
  · intro l hl
    refine ⟨?_, ?_, ?_⟩
    · intro ch hnone hspawn
      refine ⟨?_, ?_, ?_⟩
      · simp [open_file_language_effects, hnone, hspawn]
      · simp [open_file_language_result, hnone, hspawn]
      · rw [hmap1 l hl, hnone, hspawn]
    · intro ch hsome hinit
      refine ⟨?_, ?_, ?_⟩
      · simp [open_file_language_effects, hsome, hinit]
      · simp [open_file_language_result, hsome, hinit]
      · rw [hmap1 l hl, hsome]
    · intro ch hsome hinit
      refine ⟨?_, ?_, ?_⟩
      · simp [open_file_language_effects, hsome, hinit]
      · simp [open_file_language_result, hsome, hinit]
      · rw [hmap1 l hl, hsome]
  · intro l hl ch docs hnone hspawn
    have heff : open_file_language_effects spawn_lsp path m l =
        [.spawned l] := by
      simp [open_file_language_effects, hnone, hspawn]
    have hm1get : (m.open_file get_languages spawn_lsp path).1.get_channel l =
        some ch := by
      rw [hmap1 l hl, hnone, hspawn]
    have hm2get : (((m.open_file get_languages spawn_lsp
        path).1.mark_initialized l docs).1).get_channel l =
        some { ch with is_initialized := true } :=
      mark_initialized_get_self _ l docs ch hm1get
    refine ⟨?_, ?_, ?_⟩
    · rw [hfull]
      rw [show (open_file_map_update spawn_lsp (get_languages path) m,
          (get_languages path).flatMap
            (open_file_language_effects spawn_lsp path m),
          consolidate_errors "Failed to start language server"
            ((get_languages path).map
              (open_file_language_result spawn_lsp path m))).2.1 =
        (get_languages path).flatMap
          (open_file_language_effects spawn_lsp path m) from rfl]
      rw [count_spawned_flatMap_mem spawn_lsp path m l (get_languages path)
        hnodup hl, heff]
      simp
    · rw [open_file_eq _ get_languages spawn_lsp path hnodup]
      rw [show ∀ (x : LspManager) (y : List LspEffect)
          (z : Except AggregateError Unit), (x, y, z).2.1 = y from
          fun _ _ _ => rfl]
      rw [count_spawned_flatMap_mem spawn_lsp path _ l (get_languages path)
        hnodup hl]
      simp [open_file_language_effects, hm2get]
    · rw [open_file_eq _ get_languages spawn_lsp path hnodup]
      rw [show ∀ (x : LspManager) (y : List LspEffect)
          (z : Except AggregateError Unit), (x, y, z).2.1 = y from
          fun _ _ _ => rfl]
      rw [List.mem_flatMap]
      refine ⟨l, hl, ?_⟩
      simp [open_file_language_effects, hm2get]

/-- C8: every path-routed request and notification — the six
`invoke_channels` operations (completion, hover, definition, references,
did-change, did-save; hover shown routing through the shared policy) and
`open_file` — reports success when all per-language outcomes succeed, and
otherwise one aggregated failure naming the call's label and enumerating
exactly the individual failure reasons (no success detail); the outcome
list carries one entry per matching language, so one failure never
prevents the attempt on the others. -/
theorem invoke_channels_aggregation (m : LspManager)
    (get_languages : CanonicalizedPath → List Language)
    (spawn_lsp : Language → Except String LspServerProcessChannel)
    (path : CanonicalizedPath) (label : String)
    (f : LspServerProcessChannel → Except String Unit) :
    ((∀ ch ∈ (get_languages path).filterMap m.get_channel, f ch = .ok ()) →
       m.invoke_channels get_languages path label f = .ok ()) ∧
    (∀ ch, ch ∈ (get_languages path).filterMap m.get_channel →
       ∀ e, f ch = .error e →
       ∃ reasons, m.invoke_channels get_languages path label f =
           .error ⟨label, reasons⟩ ∧ e ∈ reasons ∧
         reasons = (((get_languages path).filterMap m.get_channel).map f).filterMap
           (fun r => match r with | .error reason => some reason | .ok _ => none)) ∧
    (m.request_hover get_languages ⟨path⟩ =
      m.invoke_channels get_languages path "Failed to request hover"
        fun channel => channel.request_hover ⟨path⟩) ∧
    ((get_languages path).Nodup →
      (∀ l ∈ get_languages path,
        open_file_language_result spawn_lsp path m l = .ok ()) →
      (m.open_file get_languages spawn_lsp path).2.2 = .ok ()) ∧
    ((get_languages path).Nodup →
      ∀ l ∈ get_languages path, ∀ e,
        open_file_language_result spawn_lsp path m l = .error e →
        ∃ reasons, (m.open_file get_languages spawn_lsp path).2.2 =
            .error ⟨"Failed to start language server", reasons⟩ ∧ e ∈ reasons ∧
          reasons = ((get_languages path).map
            (open_file_language_result spawn_lsp path m)).filterMap
            (fun r => match r with | .error reason => some reason | .ok _ => none)) := by
  refine ⟨?_, ?_, rfl, ?_, ?_⟩
  · intro hall
    rw [LspManager.invoke_channels]
    apply consolidate_errors_ok
    intro r hr
    rw [List.mem_map] at hr
    obtain ⟨ch, hch, rfl⟩ := hr
    exact hall ch hch
  · intro ch hch e he
    rw [LspManager.invoke_channels]
    exact consolidate_errors_error label _ e
      (by rw [← he]; exact List.mem_map_of_mem f hch)
  · intro hnodup hall
    rw [open_file_eq m get_languages spawn_lsp path hnodup]
    apply consolidate_errors_ok
    intro r hr
    rw [List.mem_map] at hr
    obtain ⟨l, hl, rfl⟩ := hr
    exact hall l hl
  · intro hnodup l hl e he
    rw [open_file_eq m get_languages spawn_lsp path hnodup]
    exact consolidate_errors_error "Failed to start language server" _ e
      (by rw [← he]; exact List.mem_map_of_mem _ hl)

/-- C10: a path-routed operation silently skips every language whose
channel has not been spawned: when none of the file's languages has a
channel, no channel operation is invoked (the filtered channel list is
empty) and the call reports success. -/
theorem invoke_channels_skips_unspawned (m : LspManager)
    (get_languages : CanonicalizedPath → List Language)
    (path : CanonicalizedPath) (label : String)
    (f : LspServerProcessChannel → Except String Unit)
    (h : ∀ l ∈ get_languages path, m.get_channel l = none) :
    (get_languages path).filterMap m.get_channel = [] ∧
      m.invoke_channels get_languages path label f = .ok () := by
  have hnil : (get_languages path).filterMap m.get_channel = [] := by
    rw [List.filterMap_eq_nil_iff]
    exact h
  refine ⟨hnil, ?_⟩
  rw [LspManager.invoke_channels, hnil]
  rfl

def wChannel (init : Bool) (r : Except String Unit) : LspServerProcessChannel :=
  { is_initialized := init
    request_completion := fun _ => r
    request_hover := fun _ => r
    request_definition := fun _ => r
    request_references := fun _ => r
    document_did_open := fun _ => r
    documents_did_open := fun _ => r
    document_did_change := fun _ _ => r
    document_did_save := fun _ => r }

def chOkA : LspServerProcessChannel := wChannel true (.ok ())
def chTimeout : LspServerProcessChannel := wChannel true (.error "timeout")
def chOkC : LspServerProcessChannel := wChannel true (.ok ())
def wManager8 : LspManager := ⟨[(0, chOkA), (1, chTimeout), (2, chOkC)]⟩

def wSpawn : Language → Except String LspServerProcessChannel :=
  fun _ => .ok (wChannel false (.ok ()))
def wManager7 : LspManager := ⟨[(1, wChannel true (.ok ()))]⟩

def wSpawnFail : Language → Except String LspServerProcessChannel :=
  fun l => if l = 7 then .error "spawn failed" else .ok (wChannel false (.ok ()))

/-- Witness for C7: a path mapping to two languages — the unseen
language 0 is spawned (exactly once across two calls) while the
initialized language 1 is sent a document-open notification. -/
theorem open_file_spec_witness :
    (open_file_language_effects wSpawn "f.rs" wManager7 0 =
        [.spawned 0] ∧
      open_file_language_result wSpawn "f.rs" wManager7 0 = .ok () ∧
      (wManager7.open_file (fun _ => [0, 1]) wSpawn "f.rs").1.get_channel 0 =
        some (wChannel false (.ok ()))) ∧
    (open_file_language_effects wSpawn "f.rs" wManager7 1 =
        [.did_open_sent 1 "f.rs"] ∧
      open_file_language_result wSpawn "f.rs" wManager7 1 =
        (wChannel true (.ok ())).document_did_open "f.rs" ∧
      (wManager7.open_file (fun _ => [0, 1]) wSpawn "f.rs").1.get_channel 1 =
        some (wChannel true (.ok ()))) ∧
    ((wManager7.open_file (fun _ => [0, 1]) wSpawn "f.rs").2.1.count
        (.spawned 0) = 1 ∧
      ((((wManager7.open_file (fun _ => [0, 1]) wSpawn
          "f.rs").1.mark_initialized 0 ["f.rs"]).1.open_file
          (fun _ => [0, 1]) wSpawn "f.rs").2.1.count (.spawned 0) = 0 ∧
       LspEffect.did_open_sent 0 "f.rs" ∈
         (((wManager7.open_file (fun _ => [0, 1]) wSpawn
           "f.rs").1.mark_initialized 0 ["f.rs"]).1.open_file
           (fun _ => [0, 1]) wSpawn "f.rs").2.1)) :=
  ⟨((open_file_spec wManager7 (fun _ => [0, 1]) wSpawn "f.rs"
      (by decide)).2.1 0 (by decide)).1 (wChannel false (.ok ())) rfl rfl,
    ((open_file_spec wManager7 (fun _ => [0, 1]) wSpawn "f.rs"
      (by decide)).2.1 1 (by decide)).2.1 (wChannel true (.ok ())) rfl rfl,
    (open_file_spec wManager7 (fun _ => [0, 1]) wSpawn "f.rs"
      (by decide)).2.2 0 (by decide) (wChannel false (.ok ())) ["f.rs"]
      rfl rfl⟩

/-- Witness for C8: the timeout-hover aggregation plus an open_file
spawn failure aggregated under its label while the other language still
proceeds. -/
theorem invoke_channels_aggregation_witness :
    (∃ reasons, LspManager.invoke_channels wManager8 (fun _ => [0, 1, 2]) "f.rs"
        "Failed to request hover" (fun channel => channel.request_hover ⟨"f.rs"⟩) =
        .error ⟨"Failed to request hover", reasons⟩ ∧ "timeout" ∈ reasons ∧
      reasons = ((((fun (_ : CanonicalizedPath) => [0, 1, 2]) "f.rs").filterMap
          wManager8.get_channel).map
          (fun channel => channel.request_hover ⟨"f.rs"⟩)).filterMap
        (fun r => match r with | .error reason => some reason | .ok _ => none)) ∧
    (∃ reasons, (LspManager.open_file ⟨[]⟩ (fun _ => [6, 7]) wSpawnFail
        "f.rs").2.2 = .error ⟨"Failed to start language server", reasons⟩ ∧
      "spawn failed" ∈ reasons ∧
      reasons = (((fun (_ : CanonicalizedPath) => [6, 7]) "f.rs").map
          (open_file_language_result wSpawnFail "f.rs" ⟨[]⟩)).filterMap
        (fun r => match r with | .error reason => some reason | .ok _ => none)) :=
  ⟨(invoke_channels_aggregation wManager8 (fun _ => [0, 1, 2]) wSpawn "f.rs"
      "Failed to request hover" (fun channel => channel.request_hover ⟨"f.rs"⟩)).2.1
    chTimeout
    (show chTimeout ∈ [chOkA, chTimeout, chOkC] from
      List.Mem.tail _ (List.Mem.head _))
    "timeout" rfl,
    (invoke_channels_aggregation ⟨[]⟩ (fun _ => [6, 7]) wSpawnFail "f.rs"
      "Failed to request hover" (fun channel => channel.request_hover ⟨"f.rs"⟩)
      ).2.2.2.2 (by decide) 7 (by decide) "spawn failed" rfl⟩

/-- Witness for C10: a file whose only language has no spawned channel —
no channel is invoked and the call succeeds. -/
theorem invoke_channels_skips_unspawned_witness :
    ((fun (_ : CanonicalizedPath) => [5]) "f.rs").filterMap
        (LspManager.get_channel ⟨[]⟩) = [] ∧
      LspManager.invoke_channels ⟨[]⟩ (fun _ => [5]) "f.rs"
        "Failed to notify document did save"
        (fun channel => channel.document_did_save "f.rs") = .ok () :=
  invoke_channels_skips_unspawned ⟨[]⟩ (fun _ => [5]) "f.rs"
    "Failed to notify document did save"
    (fun channel => channel.document_did_save "f.rs") (fun _ _ => rfl)

end Ki
